import Mathlib

/-!
Verification of the DPLL-solver repository (Go sources) against its
natural-language specification.  The Go data structures and functions are
shallowly embedded as Lean definitions with value semantics: Go slices become
`List`, Go structs become structures, Go `int` becomes `Int`, and the mutation
performed by the Go functions becomes explicit state passing.  Nondeterministic
Go map iteration is modelled by an explicit iteration-order parameter together
with a validity predicate stating that the order enumerates exactly the keys of
the map in question.
-/

namespace DPLL

/-- parser.go: `type Variable struct { ID int; Negated bool; Impossible bool }` -/
structure Variable where
  ID : Int
  Negated : Bool
  Impossible : Bool
deriving DecidableEq, Repr

/-- parser.go: `type Clause struct { Vars []Variable }` -/
structure Clause where
  Vars : List Variable
deriving DecidableEq, Repr

/-- parser.go: `type Task struct { Name string; NumVars int; NumClauses int; Clauses []*Clause }` -/
structure Task where
  Name : String
  NumVars : Int
  NumClauses : Int
  Clauses : List Clause
deriving DecidableEq, Repr

/-! ## Parser: clause-line validation and construction

`parseClauseLine` in parser.go first tokenises the line, checks the trailing
`"0"`, matches every other token against the regex `^-?[1-9]\d*$` and converts
it with `strconv.Atoi`.  We embed the function from the integer token list
onwards (`clauseInts` in the Go source); the string-level tokenisation only
produces the integer list and is not needed by any claim. -/

/-- parser.go `validateNoNegativePairs`: walks the slice keeping a `seen` set;
rejects as soon as the negation of the current number was already seen. -/
def validateNoNegativePairsAux (seen : List Int) : List Int → Bool
  | [] => true
  | n :: rest =>
    if (-n) ∈ seen then false
    else validateNoNegativePairsAux (n :: seen) rest

def validateNoNegativePairs (slice : List Int) : Bool :=
  validateNoNegativePairsAux [] slice

/-- Number of binary digits of `m` (`0` for `0`); the fuel of 64 covers
every 64-bit magnitude, which is all `strconv.Atoi` can produce. -/
def bitsAux : Nat → Nat → Nat
  | 0, _ => 0
  | fuel + 1, m => if m = 0 then 0 else bitsAux fuel (m / 2) + 1

def bits (m : Nat) : Nat := bitsAux 64 m

/-- The exact value of the Go conversion `float64(m)` for a magnitude
`m < 2 ^ 64`: exact below `2 ^ 53`, otherwise rounded to the nearest
multiple of one unit in the last place (`2 ^ (bits m - 53)`), ties to the
even significand — IEEE 754 round-to-nearest-even, binary64. -/
def float64OfNat (m : Nat) : Nat :=
  if m < 2 ^ 53 then m
  else
    let k := bits m - 53
    let q := m / 2 ^ k
    let r := m % 2 ^ k
    if r < 2 ^ k / 2 then q * 2 ^ k
    else if 2 ^ k / 2 < r then (q + 1) * 2 ^ k
    else if q % 2 = 0 then q * 2 ^ k else (q + 1) * 2 ^ k

/-- parser.go `parseClauseLine`, conversion of one integer token to a
`Variable`.  A negative token sets `Negated` and computes the id as
`int(math.Abs(float64(num)))`: the magnitude passes through `float64`, so
magnitudes of `2 ^ 53` and above can lose their low bits to rounding.  (For
magnitudes of at least `2 ^ 63 - 511` the rounded value is `2 ^ 63` and Go's
back-conversion to `int` is implementation-defined; the model keeps the
rounded value there.)  A positive token becomes the id unchanged. -/
def intToVariable (num : Int) : Variable :=
  if num < 0 then ⟨(float64OfNat num.natAbs : Int), true, false⟩
  else ⟨num, false, false⟩

/-- parser.go `parseClauseLine` from the parsed integer list onwards:
reject when `validateNoNegativePairs` fails, otherwise build the clause. -/
def parseClauseLine (clauseInts : List Int) : Option Clause :=
  if validateNoNegativePairs clauseInts then
    some ⟨clauseInts.map intToVariable⟩
  else
    none

/-! ## Parser: post-parse validation (`Task.Verify`) -/

/-- All variable ids occurring in the clauses of a task (with repetition). -/
def usedIDs (t : Task) : List Int :=
  t.Clauses.flatMap fun c => c.Vars.map (·.ID)

/-- The ids `1, …, NumVars-1` that the Go `Verify` initialises to `false` in
its `checkMap` (the loop runs `for i := 1; i < t.NumVars; i++`). -/
def rangeIDs (t : Task) : List Int :=
  (List.range (t.NumVars.toNat - 1)).map fun i => ((i + 1 : Nat) : Int)

/-- parser.go `Task.Verify`, modelled as: does `Verify` return an error?
The three checks happen in the Go order: declared clause count versus parsed
clauses, `NumVars <= 0`, and a `checkMap` entry left `false` (an id from
`1 … NumVars-1` that appears in no clause; ids outside this range are inserted
as `true` when seen and can never trigger the error). -/
def Task.VerifyErr (t : Task) : Bool :=
  if t.NumClauses ≠ (t.Clauses.length : Int) then true
  else if t.NumVars ≤ 0 then true
  else !((rangeIDs t).all fun i => decide (i ∈ usedIDs t))

/-! ### Parser lemmas -/

theorem validateNoNegativePairsAux_true {seen l : List Int}
    (h : validateNoNegativePairsAux seen l = true) :
    (∀ a ∈ l, ∀ b ∈ l, a = -b → a = b) ∧ (∀ a ∈ seen, ∀ b ∈ l, b ≠ -a) := by
  induction l generalizing seen with
  | nil => exact ⟨by simp, by simp⟩
  | cons n rest ih =>
    rw [validateNoNegativePairsAux] at h
    by_cases hmem : (-n) ∈ seen
    · simp [hmem] at h
    · rw [if_neg hmem] at h
      obtain ⟨ih1, ih2⟩ := ih h
      constructor
      · intro a ha b hb hab
        rcases List.mem_cons.mp ha with ha' | ha' <;>
          rcases List.mem_cons.mp hb with hb' | hb'
        · rw [ha', hb']
        · exfalso
          exact ih2 n (List.mem_cons_self n seen) b hb' (by omega)
        · exfalso
          exact ih2 n (List.mem_cons_self n seen) a ha' (by omega)
        · exact ih1 a ha' b hb' hab
      · intro a ha b hb hba
        rcases List.mem_cons.mp hb with hb' | hb'
        · exact hmem (by rw [show (-n : Int) = a by omega]; exact ha)
        · exact ih2 a (List.mem_cons_of_mem n ha) b hb' hba

/-- Below `2 ^ 53` — and still at `2 ^ 53` itself — the `float64` conversion
is exact. -/
theorem float64OfNat_exact {m : Nat} (hb : m ≤ 2 ^ 53) :
    float64OfNat m = m := by
  by_cases h : m < 2 ^ 53
  · unfold float64OfNat
    rw [if_pos h]
  · have hm : m = 2 ^ 53 := by omega
    subst hm
    decide

theorem intToVariable_ID_negated {num : Int} (hb : num.natAbs ≤ 2 ^ 53) :
    ((intToVariable num).Negated = true → (intToVariable num).ID = -num) ∧
    ((intToVariable num).Negated = false → (intToVariable num).ID = num) := by
  unfold intToVariable
  by_cases h : num < 0
  · rw [if_pos h]
    refine ⟨fun _ => ?_, fun hc => nomatch hc⟩
    show ((float64OfNat num.natAbs : Nat) : Int) = -num
    rw [float64OfNat_exact hb]
    omega
  · rw [if_neg h]
    exact ⟨fun hc => (nomatch hc), fun _ => rfl⟩

/-- C5 amended part 1: on lines whose integer tokens all have magnitude at
most `2 ^ 53` (the exactly `float64`-representable range), every clause
accepted by `parseClauseLine` contains no literal together with its negation
(no two literals with the same `ID` and different `Negated`). -/
theorem parseClauseLine_no_opposites {ints : List Int} {c : Clause}
    (hb : ∀ n ∈ ints, n.natAbs ≤ 2 ^ 53)
    (h : parseClauseLine ints = some c) :
    ∀ v ∈ c.Vars, ∀ w ∈ c.Vars, v.ID = w.ID → v.Negated = w.Negated := by
  unfold parseClauseLine at h
  by_cases hv : validateNoNegativePairs ints = true
  · rw [if_pos hv] at h
    obtain ⟨hpair, -⟩ := @validateNoNegativePairsAux_true [] ints hv
    injection h with h
    subst h
    intro v hv' w hw' hid
    simp only [List.mem_map] at hv' hw'
    obtain ⟨n1, hn1, rfl⟩ := hv'
    obtain ⟨n2, hn2, rfl⟩ := hw'
    by_contra hneq
    have h1 := intToVariable_ID_negated (hb n1 hn1)
    have h2 := intToVariable_ID_negated (hb n2 hn2)
    rcases Bool.eq_false_or_eq_true (intToVariable n1).Negated with hb1 | hb1 <;>
      rcases Bool.eq_false_or_eq_true (intToVariable n2).Negated with hb2 | hb2
    · exact hneq (hb1.trans hb2.symm)
    · have e1 := h1.1 hb1
      have e2 := h2.2 hb2
      have heq : n1 = n2 := hpair n1 hn1 n2 hn2 (by omega)
      rw [heq] at hb1
      exact absurd (hb1.symm.trans hb2) (by decide)
    · have e1 := h1.2 hb1
      have e2 := h2.1 hb2
      have heq : n2 = n1 := hpair n2 hn2 n1 hn1 (by omega)
      rw [heq] at hb2
      exact absurd (hb1.symm.trans hb2) (by decide)
    · exact hneq (hb1.trans hb2.symm)
  · rw [if_neg hv] at h
    exact absurd h (by simp)

/-- C5 amended part 2: a clause line with tokens of magnitude at most
`2 ^ 53` whose literals contain an id in both polarities is rejected by
`parseClauseLine`. -/
theorem parseClauseLine_rejects_opposites {ints : List Int}
    (hb : ∀ n ∈ ints, n.natAbs ≤ 2 ^ 53)
    (h : ∃ v ∈ ints.map intToVariable, ∃ w ∈ ints.map intToVariable,
          v.ID = w.ID ∧ v.Negated ≠ w.Negated) :
    parseClauseLine ints = none := by
  by_cases hv : validateNoNegativePairs ints = true
  · exfalso
    obtain ⟨v, hv', w, hw', hid, hneq⟩ := h
    have := @parseClauseLine_no_opposites ints ⟨ints.map intToVariable⟩ hb
      (by unfold parseClauseLine; rw [if_pos hv])
    exact hneq (this v hv' w hw' hid)
  · unfold parseClauseLine
    rw [if_neg hv]

/-! ### Claim C5 (corrected) and claim C9 -/

/-- C5, counterexample: both halves of the claimed clause shape fail.
The line `1 1 0` (integer tokens `[1, 1]`) is accepted although the clause
repeats the literal `(1, positive)`: `validateNoNegativePairs` only rejects
a number together with its negation, never duplicates.  And the line
`9007199254740992 -9007199254740993 0` (magnitudes `2^53` and `2^53 + 1`) is
accepted although its clause contains the literal `(2^53, positive)`
together with its negation: the raw integers are not negations of each
other, so the validation passes, but the negative token's id goes through
`float64`, which rounds `2^53 + 1` down to `2^53`. -/
theorem parseClauseLine_shape_cex :
    (parseClauseLine [1, 1] = some ⟨[⟨1, false, false⟩, ⟨1, false, false⟩]⟩ ∧
      ¬ ((⟨[⟨1, false, false⟩, ⟨1, false, false⟩]⟩ : Clause).Vars.map
          fun v => (v.ID, v.Negated)).Nodup) ∧
    parseClauseLine [9007199254740992, -9007199254740993] =
      some ⟨[⟨9007199254740992, false, false⟩,
             ⟨9007199254740992, true, false⟩]⟩ := by
  exact ⟨⟨by decide, by decide⟩, by decide⟩

/-- C5, amended: on clause lines whose integer tokens all have magnitude at
most `2 ^ 53`, every accepted clause contains no literal together with its
negation, and any such line whose literals carry an id in both polarities is
rejected.  Beyond that range the `float64` id computation of negative tokens
aliases distinct magnitudes and the guarantee fails; and duplicate literals
with identical `(id, negated)` are never rejected at any magnitude (see the
counterexample for both). -/
theorem parseClauseLine_negation_guarantee :
    ∀ ints : List Int, (∀ n ∈ ints, n.natAbs ≤ 2 ^ 53) →
      (∀ c, parseClauseLine ints = some c →
        ∀ v ∈ c.Vars, ∀ w ∈ c.Vars, v.ID = w.ID → v.Negated = w.Negated) ∧
      ((∃ v ∈ ints.map intToVariable, ∃ w ∈ ints.map intToVariable,
          v.ID = w.ID ∧ v.Negated ≠ w.Negated) → parseClauseLine ints = none) :=
  fun _ hb =>
    ⟨fun _ h => parseClauseLine_no_opposites hb h,
     fun h => parseClauseLine_rejects_opposites hb h⟩

/-- Witness for `parseClauseLine_negation_guarantee` at concrete inputs:
`1 -2 0` is accepted and satisfies the guarantee, `3 -3 0` is rejected. -/
theorem parseClauseLine_negation_guarantee_witness :
    (∀ v ∈ (⟨[⟨1, false, false⟩, ⟨2, true, false⟩]⟩ : Clause).Vars,
      ∀ w ∈ (⟨[⟨1, false, false⟩, ⟨2, true, false⟩]⟩ : Clause).Vars,
        v.ID = w.ID → v.Negated = w.Negated) ∧
    parseClauseLine [3, -3] = none :=
  ⟨(parseClauseLine_negation_guarantee [1, -2] (by decide)).1 _ (by decide),
   (parseClauseLine_negation_guarantee [3, -3] (by decide)).2
     ⟨⟨3, false, false⟩, by decide, ⟨3, true, false⟩, by decide, by decide, by decide⟩⟩

theorem mem_rangeIDs {t : Task} (hpos : 0 < t.NumVars) (i : Int) :
    i ∈ rangeIDs t ↔ 1 ≤ i ∧ i < t.NumVars := by
  unfold rangeIDs
  simp only [List.mem_map, List.mem_range]
  constructor
  · rintro ⟨k, hk, hki⟩
    omega
  · rintro ⟨h1, h2⟩
    exact ⟨(i - 1).toNat, by omega, by omega⟩

theorem mem_usedIDs {t : Task} (i : Int) :
    i ∈ usedIDs t ↔ ∃ c ∈ t.Clauses, ∃ v ∈ c.Vars, v.ID = i := by
  simp [usedIDs, List.mem_flatMap, List.mem_map]

/-- C9 (confirmed): `Task.Verify` reports an error iff the declared clause
count differs from the number of parsed clauses, or the declared variable
count is ≤ 0, or some id in `[1, NumVars-1]` appears in no clause; the id
`NumVars` itself is never required to appear, and no error is reported when
all three conditions are met. -/
theorem Verify_error_iff (t : Task) :
    t.VerifyErr = true ↔
      (t.NumClauses ≠ (t.Clauses.length : Int) ∨ t.NumVars ≤ 0 ∨
        ∃ i : Int, 1 ≤ i ∧ i < t.NumVars ∧
          ∀ c ∈ t.Clauses, ∀ v ∈ c.Vars, v.ID ≠ i) := by
  unfold Task.VerifyErr
  by_cases h1 : t.NumClauses ≠ (t.Clauses.length : Int)
  · simp [h1]
  · rw [if_neg h1]
    by_cases h2 : t.NumVars ≤ 0
    · simp [h2]
    · rw [if_neg h2]
      have hpos : 0 < t.NumVars := by omega
      constructor
      · intro h
        refine Or.inr (Or.inr ?_)
        simp only [Bool.not_eq_true'] at h
        rw [List.all_eq_false] at h
        obtain ⟨i, hi, hnot⟩ := h
        rw [mem_rangeIDs hpos] at hi
        have hnot' : i ∉ usedIDs t := by simpa using hnot
        refine ⟨i, hi.1, hi.2, fun c hc v hv he => ?_⟩
        exact hnot' ((mem_usedIDs i).mpr ⟨c, hc, v, hv, he⟩)
      · rintro (h | h | ⟨i, hi1, hi2, hmiss⟩)
        · exact absurd h h1
        · omega
        · have hmem : i ∉ usedIDs t := by
            intro hmem
            obtain ⟨c, hc, v, hv, he⟩ := (mem_usedIDs i).mp hmem
            exact hmiss c hc v hv he
          simp only [Bool.not_eq_true']
          rw [List.all_eq_false]
          exact ⟨i, (mem_rangeIDs hpos i).mpr ⟨hi1, hi2⟩, by simpa using hmem⟩

/-! ## The reducer (`Solver.reduceWorkingSet`, parallel_solver.go)

The Go function iterates over the working set; inside a clause it skips
impossible variables, removes the whole clause on a literal equal to `rVar`
(same `ID`, same `Negated`) via `goto preLoop` — restarting the outer loop on
the shortened list — and marks a literal with the same `ID` but opposite
`Negated` as impossible, setting `didWork`.  Note that the `goto` jumps over
the `didWork = true` statement, so clause removal alone never sets `didWork`;
marks made before a removal (in any clause, including the removed one) do. -/

/-- One pass over a single clause's variables.  `(none, w)` means the clause
is satisfied by `r` and is removed (`w` records marks made before the removal
point); `(some vs, w)` is the clause with opposite literals marked. -/
def scanClause (r : Variable) : List Variable → Option (List Variable) × Bool
  | [] => (some [], false)
  | v :: vs =>
    if v.Impossible then
      match scanClause r vs with
      | (none, w) => (none, w)
      | (some vs', w) => (some (v :: vs'), w)
    else if v.ID = r.ID then
      if v.Negated = r.Negated then (none, false)
      else
        match scanClause r vs with
        | (none, _) => (none, true)
        | (some vs', _) => (some ({ v with Impossible := true } :: vs'), true)
    else
      match scanClause r vs with
      | (none, w) => (none, w)
      | (some vs', w) => (some (v :: vs'), w)

/-- Result of one left-to-right pass over the clause list: `done` if the pass
ran to the end, `cut` if a clause was removed and the Go `goto preLoop`
restarts the pass on the returned (shortened) list. -/
inductive ScanRes where
  | done (cs : List Clause) (w : Bool)
  | cut (cs : List Clause) (w : Bool)
deriving DecidableEq, Repr

def scanClauses (r : Variable) : List Clause → ScanRes
  | [] => .done [] false
  | c :: cs =>
    match scanClause r c.Vars with
    | (none, w) => .cut cs w
    | (some vs, w) =>
      match scanClauses r cs with
      | .done cs' w' => .done (⟨vs⟩ :: cs') (w || w')
      | .cut cs' w' => .cut (⟨vs⟩ :: cs') (w || w')

/-- The restart loop of `reduceWorkingSet`, with explicit restart fuel.
Every `cut` shortens the list by one clause, so `cs.length + 1` restarts
always suffice (`reduceRestarts_fuel_eq` below); the fuel-0 case is
unreachable from `reduceWorkingSet`. -/
def reduceRestarts (r : Variable) : Nat → List Clause → List Clause × Bool
  | 0, cs => (cs, false)
  | fuel + 1, cs =>
    match scanClauses r cs with
    | .done cs' w => (cs', w)
    | .cut cs' w =>
      let p := reduceRestarts r fuel cs'
      (p.1, w || p.2)

/-- parallel_solver.go `Solver.reduceWorkingSet`: returns the new working set
and `didWork`. -/
def reduceWorkingSet (r : Variable) (cs : List Clause) : List Clause × Bool :=
  reduceRestarts r (cs.length + 1) cs

/-- The `(id, negated)` pairs of a variable list, ignoring `Impossible`. -/
def litsOf (vs : List Variable) : List (Int × Bool) :=
  vs.map fun v => (v.ID, v.Negated)

/-- The clause contains a non-impossible literal equal to `r`
(same id, same polarity): the removal condition of the reducer. -/
def hasActiveLit (r : Variable) (vs : List Variable) : Prop :=
  ∃ v ∈ vs, v.Impossible = false ∧ v.ID = r.ID ∧ v.Negated = r.Negated

instance (r : Variable) (vs : List Variable) : Decidable (hasActiveLit r vs) := by
  unfold hasActiveLit
  infer_instance

/-- Number of non-impossible variables of a clause (the Go
`nonImpossibleCount`). -/
def nonImpCount (vs : List Variable) : Nat :=
  (vs.filter fun v => !v.Impossible).length

/-- Termination measure of a working set: number of clauses plus number of
non-impossible literal occurrences. -/
def mu (cs : List Clause) : Nat :=
  cs.length + (cs.map fun c => nonImpCount c.Vars).sum

/-! ### Reducer lemmas -/

theorem scanClauses_cut_length {r : Variable} :
    ∀ {cs cs' : List Clause} {w : Bool},
      scanClauses r cs = .cut cs' w → cs'.length < cs.length := by
  intro cs
  induction cs with
  | nil =>
    intro cs' w h
    simp [scanClauses] at h
  | cons c cs ih =>
    intro cs' w h
    rcases hsc : scanClause r c.Vars with ⟨o, w0⟩
    cases o with
    | none =>
      simp only [scanClauses, hsc, ScanRes.cut.injEq] at h
      obtain ⟨rfl, rfl⟩ := h
      simp
    | some vs =>
      rcases hre : scanClauses r cs with ⟨cs0, w0'⟩ | ⟨cs0, w0'⟩
      · simp [scanClauses, hsc, hre] at h
      · simp only [scanClauses, hsc, hre, ScanRes.cut.injEq] at h
        obtain ⟨rfl, rfl⟩ := h
        simpa using ih hre

/-- A pass over a clause that makes no mark returns the clause unchanged. -/
theorem scanClause_false_eq {r : Variable} :
    ∀ {vs vs' : List Variable},
      scanClause r vs = (some vs', false) → vs' = vs := by
  intro vs
  induction vs with
  | nil =>
    intro vs' h
    simp only [scanClause, Prod.mk.injEq, Option.some.injEq] at h
    exact h.1.symm
  | cons v vs ih =>
    intro vs' h
    simp only [scanClause] at h
    by_cases hv : v.Impossible
    · rw [if_pos hv] at h
      rcases hsc : scanClause r vs with ⟨o, w0⟩
      cases o with
      | none => simp [hsc] at h
      | some vs0 =>
        simp only [hsc, Prod.mk.injEq, Option.some.injEq] at h
        obtain ⟨h1, rfl⟩ := h
        rw [← h1, ih hsc]
    · rw [if_neg hv] at h
      by_cases hid : v.ID = r.ID
      · rw [if_pos hid] at h
        by_cases hneg : v.Negated = r.Negated
        · simp [if_pos hneg] at h
        · rw [if_neg hneg] at h
          rcases hsc : scanClause r vs with ⟨o, w0⟩
          cases o with
          | none => simp [hsc] at h
          | some vs0 => simp [hsc] at h
      · rw [if_neg hid] at h
        rcases hsc : scanClause r vs with ⟨o, w0⟩
        cases o with
        | none => simp [hsc] at h
        | some vs0 =>
          simp only [hsc, Prod.mk.injEq, Option.some.injEq] at h
          obtain ⟨h1, rfl⟩ := h
          rw [← h1, ih hsc]

/-- A pass over the clause list that makes no mark and removes no clause
returns the list unchanged. -/
theorem scanClauses_false_eq {r : Variable} :
    ∀ {cs cs' : List Clause},
      scanClauses r cs = .done cs' false → cs' = cs := by
  intro cs
  induction cs with
  | nil =>
    intro cs' h
    simp only [scanClauses, ScanRes.done.injEq] at h
    exact h.1.symm
  | cons c cs ih =>
    intro cs' h
    rcases hsc : scanClause r c.Vars with ⟨o, w0⟩
    cases o with
    | none => simp [scanClauses, hsc] at h
    | some vs =>
      rcases hre : scanClauses r cs with ⟨cs0, w0'⟩ | ⟨cs0, w0'⟩
      · simp only [scanClauses, hsc, hre, ScanRes.done.injEq] at h
        obtain ⟨h1, h2⟩ := h
        rw [Bool.or_eq_false_iff] at h2
        obtain ⟨rfl, rfl⟩ := h2
        rw [← h1, scanClause_false_eq hsc, ih hre]
      · simp [scanClauses, hsc, hre] at h

theorem reduceRestarts_succ (r : Variable) (n : Nat) (cs : List Clause) :
    reduceRestarts r (n + 1) cs =
      match scanClauses r cs with
      | .done cs' w => (cs', w)
      | .cut cs' w => ((reduceRestarts r n cs').1, w || (reduceRestarts r n cs').2) :=
  rfl

/-- After a completed pass, every literal of the reduced variable's id is
impossible in every surviving clause. -/
theorem scanClause_some_imp {r : Variable} :
    ∀ {vs vs' : List Variable} {w : Bool},
      scanClause r vs = (some vs', w) → ∀ v ∈ vs', v.ID = r.ID → v.Impossible = true := by
  intro vs
  induction vs with
  | nil =>
    intro vs' w h v hv
    simp only [scanClause, Prod.mk.injEq, Option.some.injEq] at h
    rw [← h.1] at hv
    simp at hv
  | cons a as ih =>
    intro vs' w h v hv hid
    simp only [scanClause] at h
    by_cases ha : a.Impossible
    · rw [if_pos ha] at h
      rcases hsc : scanClause r as with ⟨o, w0⟩
      cases o with
      | none => rw [hsc] at h; simp at h
      | some vs0 =>
        rw [hsc] at h
        simp only [Prod.mk.injEq, Option.some.injEq] at h
        obtain ⟨h1, rfl⟩ := h
        rw [← h1] at hv
        rcases List.mem_cons.mp hv with rfl | hv0
        · exact ha
        · exact ih hsc v hv0 hid
    · rw [if_neg ha] at h
      by_cases haid : a.ID = r.ID
      · rw [if_pos haid] at h
        by_cases hneg : a.Negated = r.Negated
        · simp [if_pos hneg] at h
        · rw [if_neg hneg] at h
          rcases hsc : scanClause r as with ⟨o, w0⟩
          cases o with
          | none => rw [hsc] at h; simp at h
          | some vs0 =>
            rw [hsc] at h
            simp only [Prod.mk.injEq, Option.some.injEq] at h
            obtain ⟨h1, rfl⟩ := h
            rw [← h1] at hv
            rcases List.mem_cons.mp hv with rfl | hv0
            · rfl
            · exact ih hsc v hv0 hid
      · rw [if_neg haid] at h
        rcases hsc : scanClause r as with ⟨o, w0⟩
        cases o with
        | none => rw [hsc] at h; simp at h
        | some vs0 =>
          rw [hsc] at h
          simp only [Prod.mk.injEq, Option.some.injEq] at h
          obtain ⟨h1, rfl⟩ := h
          rw [← h1] at hv
          rcases List.mem_cons.mp hv with rfl | hv0
          · exact absurd hid haid
          · exact ih hsc v hv0 hid

/-- A clause in which every literal of `r`'s id is impossible is left
unchanged by a pass, with no work done. -/
theorem scanClause_fix {r : Variable} :
    ∀ {vs : List Variable}, (∀ v ∈ vs, v.ID = r.ID → v.Impossible = true) →
      scanClause r vs = (some vs, false) := by
  intro vs
  induction vs with
  | nil => intro _; rfl
  | cons a as ih =>
    intro h
    simp only [scanClause]
    by_cases ha : a.Impossible
    · rw [if_pos ha, ih fun v hv => h v (List.mem_cons_of_mem a hv)]
    · rw [if_neg ha]
      have haid : ¬ a.ID = r.ID := fun he => ha (h a (List.mem_cons_self a as) he)
      rw [if_neg haid, ih fun v hv => h v (List.mem_cons_of_mem a hv)]

theorem scanClauses_fix {r : Variable} :
    ∀ {cs : List Clause}, (∀ c ∈ cs, ∀ v ∈ c.Vars, v.ID = r.ID → v.Impossible = true) →
      scanClauses r cs = .done cs false := by
  intro cs
  induction cs with
  | nil => intro _; rfl
  | cons c cs ih =>
    intro h
    simp only [scanClauses]
    rw [scanClause_fix (h c (List.mem_cons_self c cs)),
      ih fun c' hc' => h c' (List.mem_cons_of_mem c hc')]
    rfl

theorem scanClauses_done_imp {r : Variable} :
    ∀ {cs cs' : List Clause} {w : Bool}, scanClauses r cs = .done cs' w →
      ∀ c ∈ cs', ∀ v ∈ c.Vars, v.ID = r.ID → v.Impossible = true := by
  intro cs
  induction cs with
  | nil =>
    intro cs' w h c hc
    simp only [scanClauses, ScanRes.done.injEq] at h
    rw [← h.1] at hc
    simp at hc
  | cons c0 cs ih =>
    intro cs' w h c hc v hv hid
    rcases hsc : scanClause r c0.Vars with ⟨o, w0⟩
    cases o with
    | none => simp [scanClauses, hsc] at h
    | some vs =>
      rcases hre : scanClauses r cs with ⟨cs0, w0'⟩ | ⟨cs0, w0'⟩
      · simp only [scanClauses, hsc, hre, ScanRes.done.injEq] at h
        obtain ⟨h1, -⟩ := h
        rw [← h1] at hc
        rcases List.mem_cons.mp hc with rfl | hc0
        · exact scanClause_some_imp hsc v hv hid
        · exact ih hre c hc0 v hv hid
      · simp [scanClauses, hsc, hre] at h

theorem reduceRestarts_imp {r : Variable} :
    ∀ {fuel : Nat} {cs : List Clause}, cs.length < fuel →
      ∀ c ∈ (reduceRestarts r fuel cs).1, ∀ v ∈ c.Vars,
        v.ID = r.ID → v.Impossible = true := by
  intro fuel
  induction fuel with
  | zero => intro cs h; omega
  | succ n ih =>
    intro cs hlen c hc v hv hid
    rcases hre : scanClauses r cs with ⟨cs0, w0⟩ | ⟨cs0, w0⟩
    · have hstep : reduceRestarts r (n + 1) cs = (cs0, w0) := by
        rw [reduceRestarts_succ, hre]
      rw [hstep] at hc
      exact scanClauses_done_imp hre c hc v hv hid
    · have hstep : reduceRestarts r (n + 1) cs
          = ((reduceRestarts r n cs0).1, w0 || (reduceRestarts r n cs0).2) := by
        rw [reduceRestarts_succ, hre]
      rw [hstep] at hc
      have hl := scanClauses_cut_length hre
      exact ih (by omega) c hc v hv hid

/-- C6 (confirmed): the reducer is idempotent — applying `reduceWorkingSet`
with the same literal to its own output returns that output unchanged. -/
theorem reduceWorkingSet_idempotent (r : Variable) (W : List Clause) :
    (reduceWorkingSet r (reduceWorkingSet r W).1).1 = (reduceWorkingSet r W).1 := by
  have himp := reduceRestarts_imp (r := r)
    (show W.length < W.length + 1 by omega)
  unfold reduceWorkingSet
  rw [reduceRestarts_succ r _ ((reduceRestarts r (W.length + 1) W).1),
    scanClauses_fix himp]

theorem nonImpCount_cons (a : Variable) (as : List Variable) :
    nonImpCount (a :: as) = (if a.Impossible then 0 else 1) + nonImpCount as := by
  unfold nonImpCount
  by_cases ha : a.Impossible
  · simp [ha, List.filter_cons]
  · simp [ha, List.filter_cons]
    omega

theorem mu_cons (c : Clause) (cs : List Clause) :
    mu (c :: cs) = 1 + nonImpCount c.Vars + mu cs := by
  unfold mu
  simp
  omega

theorem Clause.Vars_mk (vs : List Variable) : (Clause.mk vs).Vars = vs := rfl

/-- Combined facts about a completed pass over one clause: the `(id, negated)`
structure is unchanged, every non-impossible output literal is an input
literal, and the non-impossible count does not grow (strictly shrinking when
work was done). -/
theorem scanClause_some_master {r : Variable} :
    ∀ {vs vs' : List Variable} {w : Bool}, scanClause r vs = (some vs', w) →
      litsOf vs' = litsOf vs ∧
      (∀ v ∈ vs', v.Impossible = false → v ∈ vs) ∧
      nonImpCount vs' ≤ nonImpCount vs ∧
      (w = true → nonImpCount vs' < nonImpCount vs) := by
  intro vs
  induction vs with
  | nil =>
    intro vs' w h
    simp only [scanClause, Prod.mk.injEq, Option.some.injEq] at h
    obtain ⟨h1, h2⟩ := h
    subst h1
    subst h2
    exact ⟨rfl, by simp, le_refl _, by simp⟩
  | cons a as ih =>
    intro vs' w h
    simp only [scanClause] at h
    by_cases ha : a.Impossible
    · rw [if_pos ha] at h
      rcases hsc : scanClause r as with ⟨o, w0⟩
      cases o with
      | none => rw [hsc] at h; simp at h
      | some vs0 =>
        rw [hsc] at h
        simp only [Prod.mk.injEq, Option.some.injEq] at h
        obtain ⟨h1, rfl⟩ := h
        obtain ⟨il, io, ile, ilt⟩ := ih hsc
        subst h1
        refine ⟨by simp [litsOf] at il ⊢; exact il, ?_, ?_, ?_⟩
        · intro v hv himp
          rcases List.mem_cons.mp hv with rfl | hv0
          · exact List.mem_cons_self _ _
          · exact List.mem_cons_of_mem a (io v hv0 himp)
        · rw [nonImpCount_cons, nonImpCount_cons]
          omega
        · intro hw
          rw [nonImpCount_cons, nonImpCount_cons]
          have := ilt hw
          omega
    · rw [if_neg ha] at h
      by_cases haid : a.ID = r.ID
      · rw [if_pos haid] at h
        by_cases hneg : a.Negated = r.Negated
        · simp [if_pos hneg] at h
        · rw [if_neg hneg] at h
          rcases hsc : scanClause r as with ⟨o, w0⟩
          cases o with
          | none => rw [hsc] at h; simp at h
          | some vs0 =>
            rw [hsc] at h
            simp only [Prod.mk.injEq, Option.some.injEq] at h
            obtain ⟨h1, rfl⟩ := h
            obtain ⟨il, io, ile, ilt⟩ := ih hsc
            subst h1
            refine ⟨by simp [litsOf] at il ⊢; exact il, ?_, ?_, ?_⟩
            · intro v hv himp
              rcases List.mem_cons.mp hv with rfl | hv0
              · simp at himp
              · exact List.mem_cons_of_mem a (io v hv0 himp)
            · rw [nonImpCount_cons, nonImpCount_cons]
              simp [ha]
              omega
            · intro _
              rw [nonImpCount_cons, nonImpCount_cons]
              simp [ha]
              omega
      · rw [if_neg haid] at h
        rcases hsc : scanClause r as with ⟨o, w0⟩
        cases o with
        | none => rw [hsc] at h; simp at h
        | some vs0 =>
          rw [hsc] at h
          simp only [Prod.mk.injEq, Option.some.injEq] at h
          obtain ⟨h1, rfl⟩ := h
          obtain ⟨il, io, ile, ilt⟩ := ih hsc
          subst h1
          refine ⟨by simp [litsOf] at il ⊢; exact il, ?_, ?_, ?_⟩
          · intro v hv himp
            rcases List.mem_cons.mp hv with rfl | hv0
            · exact List.mem_cons_self _ _
            · exact List.mem_cons_of_mem a (io v hv0 himp)
          · rw [nonImpCount_cons, nonImpCount_cons]
            omega
          · intro hw
            have := ilt hw
            rw [nonImpCount_cons, nonImpCount_cons]
            omega

/-- A clause removed by the reducer contains a non-impossible literal equal
to the reduced literal. -/
theorem scanClause_none_active {r : Variable} :
    ∀ {vs : List Variable} {w : Bool},
      scanClause r vs = (none, w) → hasActiveLit r vs := by
  intro vs
  induction vs with
  | nil =>
    intro w h
    simp [scanClause] at h
  | cons a as ih =>
    intro w h
    simp only [scanClause] at h
    by_cases ha : a.Impossible
    · rw [if_pos ha] at h
      rcases hsc : scanClause r as with ⟨o, w0⟩
      cases o with
      | none =>
        obtain ⟨v, hv, hprop⟩ := ih hsc
        exact ⟨v, List.mem_cons_of_mem a hv, hprop⟩
      | some vs0 => rw [hsc] at h; simp at h
    · rw [if_neg ha] at h
      by_cases haid : a.ID = r.ID
      · rw [if_pos haid] at h
        by_cases hneg : a.Negated = r.Negated
        · exact ⟨a, List.mem_cons_self a as, by simpa using ha, haid, hneg⟩
        · rw [if_neg hneg] at h
          rcases hsc : scanClause r as with ⟨o, w0⟩
          cases o with
          | none =>
            obtain ⟨v, hv, hprop⟩ := ih hsc
            exact ⟨v, List.mem_cons_of_mem a hv, hprop⟩
          | some vs0 => rw [hsc] at h; simp at h
      · rw [if_neg haid] at h
        rcases hsc : scanClause r as with ⟨o, w0⟩
        cases o with
        | none =>
          obtain ⟨v, hv, hprop⟩ := ih hsc
          exact ⟨v, List.mem_cons_of_mem a hv, hprop⟩
        | some vs0 => rw [hsc] at h; simp at h

/-- Pass-level facts when the pass completed without removing a clause:
every input clause survives with its literal structure intact, every output
clause's non-impossible literals come from some input clause, and the measure
does not grow (strictly shrinking when a mark was made). -/
theorem scanClauses_done_master {r : Variable} :
    ∀ {cs cs' : List Clause} {w : Bool}, scanClauses r cs = .done cs' w →
      (∀ D ∈ cs, ∃ D' ∈ cs', litsOf D'.Vars = litsOf D.Vars ∧
        ∀ v ∈ D'.Vars, v.Impossible = false → v ∈ D.Vars) ∧
      (∀ D' ∈ cs', ∃ D ∈ cs, ∀ v ∈ D'.Vars, v.Impossible = false → v ∈ D.Vars) ∧
      mu cs' ≤ mu cs ∧ (w = true → mu cs' < mu cs) := by
  intro cs
  induction cs with
  | nil =>
    intro cs' w h
    simp only [scanClauses, ScanRes.done.injEq] at h
    obtain ⟨h1, h2⟩ := h
    subst h1
    subst h2
    exact ⟨by simp, by simp, le_refl _, by simp⟩
  | cons c cs ih =>
    intro cs' w h
    rcases hsc : scanClause r c.Vars with ⟨o, w0⟩
    cases o with
    | none => simp [scanClauses, hsc] at h
    | some vs =>
      rcases hre : scanClauses r cs with ⟨cs0, w0'⟩ | ⟨cs0, w0'⟩
      · simp only [scanClauses, hsc, hre, ScanRes.done.injEq] at h
        obtain ⟨h1, h2⟩ := h
        subst h1
        subst h2
        obtain ⟨sl, so, sle, slt⟩ := scanClause_some_master hsc
        obtain ⟨dmem, dorig, dle, dlt⟩ := ih hre
        refine ⟨?_, ?_, ?_, ?_⟩
        · intro D hD
          rcases List.mem_cons.mp hD with rfl | hD0
          · exact ⟨⟨vs⟩, List.mem_cons_self _ _, sl, so⟩
          · obtain ⟨D', hD', hl, ho⟩ := dmem D hD0
            exact ⟨D', List.mem_cons_of_mem _ hD', hl, ho⟩
        · intro D' hD'
          rcases List.mem_cons.mp hD' with rfl | hD0
          · exact ⟨c, List.mem_cons_self _ _, so⟩
          · obtain ⟨D, hD, ho⟩ := dorig D' hD0
            exact ⟨D, List.mem_cons_of_mem _ hD, ho⟩
        · simp only [mu_cons, Clause.Vars_mk]
          omega
        · intro hw
          rw [Bool.or_eq_true] at hw
          simp only [mu_cons, Clause.Vars_mk]
          rcases hw with hw | hw
          · have := slt hw
            omega
          · have := dlt hw
            omega
      · simp [scanClauses, hsc, hre] at h

/-- Pass-level facts when the pass removed a clause: every input clause either
survives (possibly with marks) or contained a non-impossible literal equal to
the reduced one, and the measure strictly shrinks. -/
theorem scanClauses_cut_master {r : Variable} :
    ∀ {cs cs' : List Clause} {w : Bool}, scanClauses r cs = .cut cs' w →
      (∀ D ∈ cs, (∃ D' ∈ cs', litsOf D'.Vars = litsOf D.Vars ∧
          ∀ v ∈ D'.Vars, v.Impossible = false → v ∈ D.Vars) ∨ hasActiveLit r D.Vars) ∧
      (∀ D' ∈ cs', ∃ D ∈ cs, ∀ v ∈ D'.Vars, v.Impossible = false → v ∈ D.Vars) ∧
      mu cs' < mu cs := by
  intro cs
  induction cs with
  | nil =>
    intro cs' w h
    simp [scanClauses] at h
  | cons c cs ih =>
    intro cs' w h
    rcases hsc : scanClause r c.Vars with ⟨o, w0⟩
    cases o with
    | none =>
      simp only [scanClauses, hsc, ScanRes.cut.injEq] at h
      obtain ⟨h1, h2⟩ := h
      subst h1
      refine ⟨?_, ?_, ?_⟩
      · intro D hD
        rcases List.mem_cons.mp hD with rfl | hD0
        · exact Or.inr (scanClause_none_active hsc)
        · exact Or.inl ⟨D, hD0, rfl, fun v hv _ => hv⟩
      · intro D' hD'
        exact ⟨D', List.mem_cons_of_mem _ hD', fun v hv _ => hv⟩
      · rw [mu_cons]
        omega
    | some vs =>
      rcases hre : scanClauses r cs with ⟨cs0, w0'⟩ | ⟨cs0, w0'⟩
      · simp [scanClauses, hsc, hre] at h
      · simp only [scanClauses, hsc, hre, ScanRes.cut.injEq] at h
        obtain ⟨h1, h2⟩ := h
        subst h1
        obtain ⟨sl, so, sle, slt⟩ := scanClause_some_master hsc
        obtain ⟨cmem, corig, cmu⟩ := ih hre
        refine ⟨?_, ?_, ?_⟩
        · intro D hD
          rcases List.mem_cons.mp hD with rfl | hD0
          · exact Or.inl ⟨⟨vs⟩, List.mem_cons_self _ _, sl, so⟩
          · rcases cmem D hD0 with ⟨D', hD', hl, ho⟩ | hact
            · exact Or.inl ⟨D', List.mem_cons_of_mem _ hD', hl, ho⟩
            · exact Or.inr hact
        · intro D' hD'
          rcases List.mem_cons.mp hD' with rfl | hD0
          · exact ⟨c, List.mem_cons_self _ _, so⟩
          · obtain ⟨D, hD, ho⟩ := corig D' hD0
            exact ⟨D, List.mem_cons_of_mem _ hD, ho⟩
        · simp only [mu_cons, Clause.Vars_mk]
          omega

/-- The accumulated facts about the reducer's restart loop. -/
theorem reduceRestarts_master {r : Variable} :
    ∀ {fuel : Nat} {cs : List Clause}, cs.length < fuel →
      (∀ D ∈ cs, (∃ D' ∈ (reduceRestarts r fuel cs).1,
          litsOf D'.Vars = litsOf D.Vars ∧
          ∀ v ∈ D'.Vars, v.Impossible = false → v ∈ D.Vars) ∨ hasActiveLit r D.Vars) ∧
      (∀ D' ∈ (reduceRestarts r fuel cs).1, ∃ D ∈ cs,
          ∀ v ∈ D'.Vars, v.Impossible = false → v ∈ D.Vars) ∧
      mu (reduceRestarts r fuel cs).1 ≤ mu cs ∧
      (reduceRestarts r fuel cs = (cs, false) ∨
        mu (reduceRestarts r fuel cs).1 < mu cs) := by
  intro fuel
  induction fuel with
  | zero => intro cs h; omega
  | succ n ih =>
    intro cs hlen
    rcases hre : scanClauses r cs with ⟨cs0, w0⟩ | ⟨cs0, w0⟩
    · have hstep : reduceRestarts r (n + 1) cs = (cs0, w0) := by
        rw [reduceRestarts_succ, hre]
      rw [hstep]
      obtain ⟨dmem, dorig, dle, dlt⟩ := scanClauses_done_master hre
      refine ⟨fun D hD => Or.inl (dmem D hD), dorig, dle, ?_⟩
      cases w0 with
      | true => exact Or.inr (dlt rfl)
      | false => exact Or.inl (by rw [scanClauses_false_eq hre])
    · have hstep1 : (reduceRestarts r (n + 1) cs).1 = (reduceRestarts r n cs0).1 := by
        rw [reduceRestarts_succ, hre]
      rw [hstep1]
      have hl := scanClauses_cut_length hre
      obtain ⟨cmem, corig, cmu⟩ := scanClauses_cut_master hre
      obtain ⟨imem, iorig, ile, -⟩ := ih (show cs0.length < n by omega)
      refine ⟨?_, ?_, by omega, Or.inr (by omega)⟩
      · intro D hD
        rcases cmem D hD with ⟨D', hD', hl', ho'⟩ | hact
        · rcases imem D' hD' with ⟨D'', hD'', hl'', ho''⟩ | hact'
          · exact Or.inl ⟨D'', hD'', hl''.trans hl',
              fun v hv himp => ho' v (ho'' v hv himp) himp⟩
          · obtain ⟨v, hv, h1, h2, h3⟩ := hact'
            exact Or.inr ⟨v, ho' v hv h1, h1, h2, h3⟩
        · exact Or.inr hact
      · intro D' hD'
        obtain ⟨D0, hD0, ho0⟩ := iorig D' hD'
        obtain ⟨D, hD, ho⟩ := corig D0 hD0
        exact ⟨D, hD, fun v hv himp => ho v (ho0 v hv himp) himp⟩

/-- There is a non-impossible occurrence of id `i` somewhere in the working
set. -/
def hasNonImpOcc (cs : List Clause) (i : Int) : Prop :=
  ∃ c ∈ cs, ∃ v ∈ c.Vars, v.Impossible = false ∧ v.ID = i

instance (cs : List Clause) (i : Int) : Decidable (hasNonImpOcc cs i) := by
  unfold hasNonImpOcc
  infer_instance

/-- After reducing with `r`, no non-impossible occurrence of `r.ID` is left. -/
theorem reduceWorkingSet_not_occ (r : Variable) (W : List Clause) :
    ¬ hasNonImpOcc (reduceWorkingSet r W).1 r.ID := by
  rintro ⟨c, hc, v, hv, himp, hid⟩
  have := reduceRestarts_imp (r := r)
    (show W.length < W.length + 1 by omega) c hc v hv hid
  rw [this] at himp
  exact absurd himp (by simp)

/-- Non-impossible occurrences after a reduction were already present. -/
theorem reduceWorkingSet_occ_mono {r : Variable} {W : List Clause} {i : Int}
    (h : hasNonImpOcc (reduceWorkingSet r W).1 i) : hasNonImpOcc W i := by
  obtain ⟨c, hc, v, hv, himp, hid⟩ := h
  obtain ⟨-, horig, -, -⟩ :=
    reduceRestarts_master (r := r) (show W.length < W.length + 1 by omega)
  obtain ⟨D, hD, ho⟩ := horig c hc
  exact ⟨D, hD, v, ho v hv himp, himp, hid⟩

theorem reduceWorkingSet_mu_le (r : Variable) (W : List Clause) :
    mu (reduceWorkingSet r W).1 ≤ mu W :=
  (reduceRestarts_master (r := r) (show W.length < W.length + 1 by omega)).2.2.1

/-- Reducing with a literal whose id still occurs non-impossibly strictly
shrinks the measure. -/
theorem reduceWorkingSet_mu_lt (r : Variable) (W : List Clause)
    (h : hasNonImpOcc W r.ID) : mu (reduceWorkingSet r W).1 < mu W := by
  rcases (reduceRestarts_master (r := r)
      (show W.length < W.length + 1 by omega)).2.2.2 with heq | hlt
  · exfalso
    apply reduceWorkingSet_not_occ r W
    unfold reduceWorkingSet
    rw [heq]
    exact h
  · exact hlt

/-- Every clause of the input either survives the reduction with its
`(id, negated)` structure intact or contained a non-impossible literal equal
to the reduced one. -/
theorem reduceWorkingSet_covers (r : Variable) (W : List Clause) :
    ∀ D ∈ W, (∃ D' ∈ (reduceWorkingSet r W).1,
        litsOf D'.Vars = litsOf D.Vars ∧
        ∀ v ∈ D'.Vars, v.Impossible = false → v ∈ D.Vars) ∨ hasActiveLit r D.Vars :=
  (reduceRestarts_master (r := r) (show W.length < W.length + 1 by omega)).1

/-! ## Solver state (parallel_solver.go, sequential part)

`type Solver struct` together with `Result` and the checkpoint stack.  The
stack is a Lean list whose head is the top of stack. -/

/-- parallel_solver.go `type Result int` with its four constants. -/
inductive Result where
  | UNSOLVED
  | SATISFIABLE
  | UNSATISFIABLE
  | UNKNOWN
deriving DecidableEq, Repr

/-- parallel_solver.go `type Checkpoint struct`. -/
structure Checkpoint where
  WorkCopy : List Clause
  Solution : Clause
deriving DecidableEq, Repr

/-- parallel_solver.go `type Solver struct` (the `Problem` pointer becomes the
task by value). -/
structure Solver where
  Result : Result
  Problem : Task
  WorkCopy : List Clause
  Solution : Clause
  CheckpointStack : List Checkpoint
deriving DecidableEq, Repr

/-- parallel_solver.go `NewSolver`: result `UNKNOWN`, empty solution, a deep
copy of the task's clauses as the working copy (deep copying is the identity
under value semantics), empty checkpoint stack. -/
def NewSolver (task : Task) : Solver :=
  { Result := .UNKNOWN
    Problem := task
    WorkCopy := task.Clauses
    Solution := ⟨[]⟩
    CheckpointStack := [] }

/-! ## Unit propagation (`Solver.unitPropagation`)

The Go function scans for the first clause with exactly one non-impossible
variable `unit`, appends `unit` to the solution, removes that clause, and then
runs an inline removal/marking loop (`preLoop`) over the remaining clauses:
a clause containing a variable with the unit's `ID` and `Negated` is removed
(restarting the loop), and a variable with the unit's `ID` but opposite
`Negated` is marked impossible.  Unlike `reduceWorkingSet`, this inline loop
never tests the `Impossible` flag. -/

/-- The inline pass over one clause: `none` removes the clause. -/
def unitScanClause (u : Variable) : List Variable → Option (List Variable)
  | [] => some []
  | v :: vs =>
    if v.ID = u.ID then
      if v.Negated = u.Negated then none
      else
        match unitScanClause u vs with
        | none => none
        | some vs' => some ({ v with Impossible := true } :: vs')
    else
      match unitScanClause u vs with
      | none => none
      | some vs' => some (v :: vs')

/-- Result of one pass of the inline loop over the clause list. -/
inductive UScanRes where
  | done (cs : List Clause)
  | cut (cs : List Clause)
deriving DecidableEq, Repr

def unitScanClauses (u : Variable) : List Clause → UScanRes
  | [] => .done []
  | c :: cs =>
    match unitScanClause u c.Vars with
    | none => .cut cs
    | some vs =>
      match unitScanClauses u cs with
      | .done cs' => .done (⟨vs⟩ :: cs')
      | .cut cs' => .cut (⟨vs⟩ :: cs')

/-- The `goto preLoop` restart loop, with restart fuel as for the reducer. -/
def unitRestarts (u : Variable) : Nat → List Clause → List Clause
  | 0, cs => cs
  | fuel + 1, cs =>
    match unitScanClauses u cs with
    | .done cs' => cs'
    | .cut cs' => unitRestarts u fuel cs'

def unitReduce (u : Variable) (cs : List Clause) : List Clause :=
  unitRestarts u (cs.length + 1) cs

/-- The Go scan for the first clause with exactly one non-impossible
variable; returns its index and that variable. -/
def findUnit : List Clause → Option (Nat × Variable)
  | [] => none
  | c :: cs =>
    match c.Vars.filter (fun v => !v.Impossible) with
    | [u] => some (0, u)
    | _ => (findUnit cs).map fun p => (p.1 + 1, p.2)

/-- parallel_solver.go `Solver.unitPropagation`. -/
def unitPropagation (s : Solver) : Solver × Bool :=
  match findUnit s.WorkCopy with
  | none => (s, false)
  | some (i, u) =>
    ({ s with
        Solution := ⟨s.Solution.Vars ++ [u]⟩
        WorkCopy := unitReduce u (s.WorkCopy.eraseIdx i) }, true)

/-- Unit propagation as the spec (§4.2) describes it: append the unit to the
partial solution, remove the unit clause, then invoke the reducer
`reduceWorkingSet` with the unit on the remaining working set. -/
def unitPropagationSpec (s : Solver) : Solver × Bool :=
  match findUnit s.WorkCopy with
  | none => (s, false)
  | some (i, u) =>
    ({ s with
        Solution := ⟨s.Solution.Vars ++ [u]⟩
        WorkCopy := (reduceWorkingSet u (s.WorkCopy.eraseIdx i)).1 }, true)

/-! ### Claim C8: the inline pass versus the reducer -/

/-- No variable of the list carries the unit's `(ID, Negated)` while being
marked impossible.  Under this condition the inline pass and the reducer
agree; the Go code can violate it only on working sets that contain an
impossible occurrence with the unit's own polarity. -/
def SafeU (u : Variable) (vs : List Variable) : Prop :=
  ∀ v ∈ vs, v.ID = u.ID → v.Negated = u.Negated → v.Impossible = false

instance (u : Variable) (vs : List Variable) : Decidable (SafeU u vs) := by
  unfold SafeU
  infer_instance

/-- Forget the `didWork` component of a pass result. -/
def ScanRes.forget : ScanRes → UScanRes
  | .done cs _ => .done cs
  | .cut cs _ => .cut cs

theorem unitScanClause_eq_scanClause {u : Variable} :
    ∀ {vs : List Variable}, SafeU u vs →
      unitScanClause u vs = (scanClause u vs).1 := by
  intro vs
  induction vs with
  | nil => intro _; rfl
  | cons v vs ih =>
    intro h
    have hrest : SafeU u vs := fun x hx => h x (List.mem_cons_of_mem v hx)
    simp only [unitScanClause, scanClause]
    by_cases hv : v.Impossible
    · have hid' : v.ID = u.ID → ¬ v.Negated = u.Negated := by
        intro h1 h2
        have := h v (List.mem_cons_self v vs) h1 h2
        rw [this] at hv
        exact absurd hv (by simp)
      rw [if_pos hv]
      by_cases hid : v.ID = u.ID
      · rw [if_pos hid, if_neg (hid' hid)]
        have hmark : ({ v with Impossible := true } : Variable) = v := by
          cases v
          simp at hv
          simp [hv]
        rcases hsc : scanClause u vs with ⟨o, w0⟩
        cases o with
        | none => rw [ih hrest, hsc]
        | some vs0 => rw [ih hrest, hsc, hmark]
      · rw [if_neg hid]
        rcases hsc : scanClause u vs with ⟨o, w0⟩
        cases o with
        | none => rw [ih hrest, hsc]
        | some vs0 => rw [ih hrest, hsc]
    · rw [if_neg hv]
      by_cases hid : v.ID = u.ID
      · rw [if_pos hid, if_pos hid]
        by_cases hneg : v.Negated = u.Negated
        · rw [if_pos hneg, if_pos hneg]
        · rw [if_neg hneg, if_neg hneg]
          rcases hsc : scanClause u vs with ⟨o, w0⟩
          cases o with
          | none => rw [ih hrest, hsc]
          | some vs0 => rw [ih hrest, hsc]
      · rw [if_neg hid, if_neg hid]
        rcases hsc : scanClause u vs with ⟨o, w0⟩
        cases o with
        | none => rw [ih hrest, hsc]
        | some vs0 => rw [ih hrest, hsc]

/-- Every variable surviving a pass is an original variable or has the
opposite polarity to the reduced literal (it was just marked). -/
theorem scanClause_some_vars {u : Variable} :
    ∀ {vs vs' : List Variable} {w : Bool}, scanClause u vs = (some vs', w) →
      ∀ v' ∈ vs', v' ∈ vs ∨ ¬ v'.Negated = u.Negated := by
  intro vs
  induction vs with
  | nil =>
    intro vs' w h v' hv'
    simp only [scanClause, Prod.mk.injEq, Option.some.injEq] at h
    rw [← h.1] at hv'
    simp at hv'
  | cons a as ih =>
    intro vs' w h v' hv'
    simp only [scanClause] at h
    by_cases ha : a.Impossible
    · rw [if_pos ha] at h
      rcases hsc : scanClause u as with ⟨o, w0⟩
      cases o with
      | none => rw [hsc] at h; simp at h
      | some vs0 =>
        rw [hsc] at h
        simp only [Prod.mk.injEq, Option.some.injEq] at h
        obtain ⟨h1, rfl⟩ := h
        rw [← h1] at hv'
        rcases List.mem_cons.mp hv' with rfl | hv0
        · exact Or.inl (List.mem_cons_self _ _)
        · rcases ih hsc v' hv0 with hin | hneg
          · exact Or.inl (List.mem_cons_of_mem a hin)
          · exact Or.inr hneg
    · rw [if_neg ha] at h
      by_cases haid : a.ID = u.ID
      · rw [if_pos haid] at h
        by_cases hneg : a.Negated = u.Negated
        · simp [if_pos hneg] at h
        · rw [if_neg hneg] at h
          rcases hsc : scanClause u as with ⟨o, w0⟩
          cases o with
          | none => rw [hsc] at h; simp at h
          | some vs0 =>
            rw [hsc] at h
            simp only [Prod.mk.injEq, Option.some.injEq] at h
            obtain ⟨h1, rfl⟩ := h
            rw [← h1] at hv'
            rcases List.mem_cons.mp hv' with rfl | hv0
            · exact Or.inr hneg
            · rcases ih hsc v' hv0 with hin | hneg'
              · exact Or.inl (List.mem_cons_of_mem a hin)
              · exact Or.inr hneg'
      · rw [if_neg haid] at h
        rcases hsc : scanClause u as with ⟨o, w0⟩
        cases o with
        | none => rw [hsc] at h; simp at h
        | some vs0 =>
          rw [hsc] at h
          simp only [Prod.mk.injEq, Option.some.injEq] at h
          obtain ⟨h1, rfl⟩ := h
          rw [← h1] at hv'
          rcases List.mem_cons.mp hv' with rfl | hv0
          · exact Or.inl (List.mem_cons_self _ _)
          · rcases ih hsc v' hv0 with hin | hneg
            · exact Or.inl (List.mem_cons_of_mem a hin)
            · exact Or.inr hneg

theorem scanClause_some_safe {u : Variable} {vs vs' : List Variable} {w : Bool}
    (h : SafeU u vs) (hs : scanClause u vs = (some vs', w)) : SafeU u vs' := by
  intro v' hv' hid hneg
  rcases scanClause_some_vars hs v' hv' with hin | hne
  · exact h v' hin hid hneg
  · exact absurd hneg hne

theorem unitRestarts_succ (u : Variable) (n : Nat) (cs : List Clause) :
    unitRestarts u (n + 1) cs =
      match unitScanClauses u cs with
      | .done cs' => cs'
      | .cut cs' => unitRestarts u n cs' :=
  rfl

theorem unitScanClauses_eq_scanClauses {u : Variable} :
    ∀ {cs : List Clause}, (∀ c ∈ cs, SafeU u c.Vars) →
      unitScanClauses u cs = (scanClauses u cs).forget := by
  intro cs
  induction cs with
  | nil => intro _; rfl
  | cons c cs ih =>
    intro h
    have hc : SafeU u c.Vars := h c (List.mem_cons_self c cs)
    have hrest : ∀ c' ∈ cs, SafeU u c'.Vars :=
      fun c' hc' => h c' (List.mem_cons_of_mem c hc')
    simp only [unitScanClauses, scanClauses]
    rw [unitScanClause_eq_scanClause hc]
    rcases hsc : scanClause u c.Vars with ⟨o, w0⟩
    cases o with
    | none => rfl
    | some vs =>
      rw [ih hrest]
      rcases hre : scanClauses u cs with ⟨cs0, w0'⟩ | ⟨cs0, w0'⟩
      · rfl
      · rfl

theorem scanClauses_done_safe {u : Variable} :
    ∀ {cs cs' : List Clause} {w : Bool}, (∀ c ∈ cs, SafeU u c.Vars) →
      scanClauses u cs = .done cs' w → ∀ c' ∈ cs', SafeU u c'.Vars := by
  intro cs
  induction cs with
  | nil =>
    intro cs' w _ hs c' hc'
    simp only [scanClauses, ScanRes.done.injEq] at hs
    rw [← hs.1] at hc'
    simp at hc'
  | cons c cs ih =>
    intro cs' w h hs c' hc'
    rcases hsc : scanClause u c.Vars with ⟨o, w0⟩
    cases o with
    | none => simp [scanClauses, hsc] at hs
    | some vs =>
      rcases hre : scanClauses u cs with ⟨cs0, w0'⟩ | ⟨cs0, w0'⟩
      · simp only [scanClauses, hsc, hre, ScanRes.done.injEq] at hs
        obtain ⟨h1, -⟩ := hs
        rw [← h1] at hc'
        rcases List.mem_cons.mp hc' with rfl | hc0
        · exact scanClause_some_safe (h c (List.mem_cons_self c cs)) hsc
        · exact ih (fun x hx => h x (List.mem_cons_of_mem c hx)) hre c' hc0
      · simp [scanClauses, hsc, hre] at hs

theorem scanClauses_cut_safe {u : Variable} :
    ∀ {cs cs' : List Clause} {w : Bool}, (∀ c ∈ cs, SafeU u c.Vars) →
      scanClauses u cs = .cut cs' w → ∀ c' ∈ cs', SafeU u c'.Vars := by
  intro cs
  induction cs with
  | nil =>
    intro cs' w _ hs
    simp [scanClauses] at hs
  | cons c cs ih =>
    intro cs' w h hs c' hc'
    rcases hsc : scanClause u c.Vars with ⟨o, w0⟩
    cases o with
    | none =>
      simp only [scanClauses, hsc, ScanRes.cut.injEq] at hs
      rw [← hs.1] at hc'
      exact h c' (List.mem_cons_of_mem c hc')
    | some vs =>
      rcases hre : scanClauses u cs with ⟨cs0, w0'⟩ | ⟨cs0, w0'⟩
      · simp [scanClauses, hsc, hre] at hs
      · simp only [scanClauses, hsc, hre, ScanRes.cut.injEq] at hs
        obtain ⟨h1, -⟩ := hs
        rw [← h1] at hc'
        rcases List.mem_cons.mp hc' with rfl | hc0
        · exact scanClause_some_safe (h c (List.mem_cons_self c cs)) hsc
        · exact ih (fun x hx => h x (List.mem_cons_of_mem c hx)) hre c' hc0

theorem unitRestarts_eq_reduceRestarts {u : Variable} :
    ∀ {fuel : Nat} {cs : List Clause}, (∀ c ∈ cs, SafeU u c.Vars) →
      unitRestarts u fuel cs = (reduceRestarts u fuel cs).1 := by
  intro fuel
  induction fuel with
  | zero => intro cs _; rfl
  | succ n ih =>
    intro cs h
    rcases hre : scanClauses u cs with ⟨cs0, w0⟩ | ⟨cs0, w0⟩
    · have h1 : unitScanClauses u cs = .done cs0 := by
        rw [unitScanClauses_eq_scanClauses h, hre]
        rfl
      have hstep : reduceRestarts u (n + 1) cs = (cs0, w0) := by
        rw [reduceRestarts_succ, hre]
      rw [unitRestarts_succ, h1, hstep]
    · have h1 : unitScanClauses u cs = .cut cs0 := by
        rw [unitScanClauses_eq_scanClauses h, hre]
        rfl
      have hstep1 : (reduceRestarts u (n + 1) cs).1 = (reduceRestarts u n cs0).1 := by
        rw [reduceRestarts_succ, hre]
      rw [unitRestarts_succ, h1, hstep1]
      exact ih (scanClauses_cut_safe h hre)

theorem unitReduce_eq_reduceWorkingSet {u : Variable} {W : List Clause}
    (h : ∀ c ∈ W, SafeU u c.Vars) :
    unitReduce u W = (reduceWorkingSet u W).1 :=
  unitRestarts_eq_reduceRestarts h

/-- C8, counterexample: on the working set `[[+1], [+1(impossible), +2]]` the
inline pass of `unitPropagation` removes the second clause — its removal test
ignores the `Impossible` flag — whereas appending the unit, removing the unit
clause and invoking `reduceWorkingSet` keeps that clause, because the reducer
skips impossible occurrences.  The two resulting states differ. -/
theorem unitPropagation_ne_spec :
    unitPropagation
        ⟨.UNKNOWN, ⟨"t", 2, 2, []⟩,
          [⟨[⟨1, false, false⟩]⟩, ⟨[⟨1, false, true⟩, ⟨2, false, false⟩]⟩],
          ⟨[]⟩, []⟩ ≠
      unitPropagationSpec
        ⟨.UNKNOWN, ⟨"t", 2, 2, []⟩,
          [⟨[⟨1, false, false⟩]⟩, ⟨[⟨1, false, true⟩, ⟨2, false, false⟩]⟩],
          ⟨[]⟩, []⟩ := by
  decide

/-- C8, amended: when no remaining clause carries an impossible occurrence
with the unit's own `(id, negated)`, the inline pass of `unitPropagation`
produces exactly the state obtained by appending the unit, removing the unit
clause and invoking `reduceWorkingSet` with the unit.  (The counterexample
shows the two differ when such an impossible occurrence exists: the inline
pass also removes that clause.) -/
theorem unitPropagation_refines_reducer (s : Solver)
    (h : match findUnit s.WorkCopy with
         | none => True
         | some (i, u) => ∀ c ∈ s.WorkCopy.eraseIdx i, SafeU u c.Vars) :
    unitPropagation s = unitPropagationSpec s := by
  unfold unitPropagation unitPropagationSpec
  rcases hfu : findUnit s.WorkCopy with - | ⟨i, u⟩
  · rfl
  · rw [hfu] at h
    have h' : ∀ c ∈ s.WorkCopy.eraseIdx i, SafeU u c.Vars := h
    dsimp only
    rw [unitReduce_eq_reduceWorkingSet h']

/-- Witness for `unitPropagation_refines_reducer` at a concrete state with a
unit clause `[+1]` and remainder `[-1, +2]`. -/
theorem unitPropagation_refines_reducer_witness :
    unitPropagation
        ⟨.UNKNOWN, ⟨"t", 2, 2, []⟩,
          [⟨[⟨1, false, false⟩]⟩, ⟨[⟨1, true, false⟩, ⟨2, false, false⟩]⟩],
          ⟨[]⟩, []⟩ =
      unitPropagationSpec
        ⟨.UNKNOWN, ⟨"t", 2, 2, []⟩,
          [⟨[⟨1, false, false⟩]⟩, ⟨[⟨1, true, false⟩, ⟨2, false, false⟩]⟩],
          ⟨[]⟩, []⟩ :=
  unitPropagation_refines_reducer _ (by
    show ∀ c ∈ [(⟨[⟨1, true, false⟩, ⟨2, false, false⟩]⟩ : Clause)],
      SafeU ⟨1, false, false⟩ c.Vars
    decide)

/-! ## Pure-literal elimination (`Solver.pureLiteral`)

The Go function tallies polarities of non-impossible occurrences in
`variablePolarity`, collects one representative per pure id into the
`pureLiterals` map, then — per map entry, in map-iteration order — appends the
representative to the solution and filters out every clause containing a
non-impossible occurrence of it.  Go map iteration order is randomized, so the
order is a parameter constrained to enumerate exactly the map's keys. -/

/-- Polarity `b` of id `i` is seen among non-impossible occurrences
(the Go `variablePolarity` map). -/
def hasPol (W : List Clause) (i : Int) (b : Bool) : Bool :=
  W.any fun c => c.Vars.any fun v => !v.Impossible && v.ID == i && v.Negated == b

/-- Id `i` is pure: its non-impossible occurrences have exactly one polarity
(`len(polarities) == 1`). -/
def isPure (W : List Clause) (i : Int) : Bool :=
  hasPol W i true != hasPol W i false

/-- First non-impossible occurrence of id `i` in clause order — the
representative stored in the Go `pureLiterals` map. -/
def findRep (W : List Clause) (i : Int) : Option Variable :=
  W.findSome? fun c => c.Vars.find? fun v => v.ID == i && !v.Impossible

/-- Remove every clause containing a non-impossible occurrence of the pure
literal `p` (same id and polarity). -/
def pureFilter (p : Variable) (W : List Clause) : List Clause :=
  W.filter fun c =>
    !(c.Vars.any fun v => v.ID == p.ID && v.Negated == p.Negated && !v.Impossible)

/-- parallel_solver.go `Solver.pureLiteral`, parameterised by the iteration
order `ordP` of the `pureLiterals` map.  All representatives are looked up in
the working set as it stood before the removal loop, exactly as in the Go
code, which fully builds `pureLiterals` first. -/
def pureLiteral (ordP : List Int) (s : Solver) : Solver × Bool :=
  let reps := ordP.filterMap (findRep s.WorkCopy)
  if reps.isEmpty then (s, false)
  else
    ({ s with
        Solution := ⟨s.Solution.Vars ++ reps⟩
        WorkCopy := reps.foldl (fun W p => pureFilter p W) s.WorkCopy }, true)

/-- All ids occurring in the working set (the candidate key space of the Go
maps; with repetition). -/
def allIDs (W : List Clause) : List Int :=
  W.flatMap fun c => c.Vars.map (·.ID)

/-- `ord` is a possible iteration order of the `pureLiterals` map: no
duplicates, only pure ids, and every pure id present. -/
def PureOrd (W : List Clause) (ord : List Int) : Prop :=
  ord.Nodup ∧ (∀ i ∈ ord, isPure W i = true) ∧
    ∀ i ∈ allIDs W, isPure W i = true → i ∈ ord

instance (W : List Clause) (ord : List Int) : Decidable (PureOrd W ord) := by
  unfold PureOrd
  infer_instance

/-! ## Branching (`Solver.split`) -/

/-- Number of non-impossible occurrences of id `i` (the `variableUsageMap`
entry). -/
def usageCount (W : List Clause) (i : Int) : Nat :=
  (W.map fun c => (c.Vars.filter fun v => !v.Impossible && v.ID == i).length).sum

/-- The body of the Go max search over the usage map: `m` is the running
`(maxVarID, maxCount)`, updated only on a strictly greater count. -/
def splitFold (W : List Clause) (m : Int × Nat) (l : List Int) : Int × Nat :=
  l.foldl (fun m i => if usageCount W i > m.2 then (i, usageCount W i) else m) m

/-- The Go max search over the usage map in iteration order `ordU`: a strictly
greater count wins, so among tied ids the one seen first wins.  Returns the
chosen id, `0` when no entry beats the initial `(0, 0)`. -/
def splitPick (W : List Clause) (ordU : List Int) : Int :=
  (splitFold W ((0 : Int), (0 : Nat)) ordU).1

/-- First occurrence of id `i` in clause order — the Go search does not test
the `Impossible` flag here. -/
def findFirstOcc (W : List Clause) (i : Int) : Option Variable :=
  W.findSome? fun c => c.Vars.find? fun v => v.ID == i

/-- `ord` is a possible iteration order of the `variableUsageMap`. -/
def UsageOrd (W : List Clause) (ord : List Int) : Prop :=
  ord.Nodup ∧ (∀ i ∈ ord, 0 < usageCount W i) ∧
    ∀ i ∈ allIDs W, 0 < usageCount W i → i ∈ ord

instance (W : List Clause) (ord : List Int) : Decidable (UsageOrd W ord) := by
  unfold UsageOrd
  infer_instance

/-- parallel_solver.go `Solver.markCheckpoint`: a deep copy of working set and
solution — the identity under value semantics. -/
def markCheckpoint (s : Solver) : Checkpoint :=
  ⟨s.WorkCopy, s.Solution⟩

/-- parallel_solver.go `Solver.split`, parameterised by the usage-map
iteration order.  With a picked id, the checkpoint (pre-loaded with the
opposite polarity of the found occurrence) is pushed, the occurrence itself is
appended to the live solution, and the reducer runs; `didWork` is the
reducer's `didWork` — so clause removals alone do not count as work.  With
`maxVarID == 0` nothing happens.  (Were the picked id absent from every
clause, the Go code would dereference a nil `pickedVariable` in
`reduceWorkingSet`; a positive count implies an occurrence, so the `none`
branch below is unreachable for valid orders.) -/
def split (ordU : List Int) (s : Solver) : Solver × Bool :=
  let maxVarID := splitPick s.WorkCopy ordU
  if maxVarID = 0 then (s, false)
  else
    match findFirstOcc s.WorkCopy maxVarID with
    | none => (s, false)
    | some v =>
      let checkpointVar : Variable := ⟨v.ID, !v.Negated, v.Impossible⟩
      let cp : Checkpoint :=
        ⟨(markCheckpoint s).WorkCopy,
          ⟨(markCheckpoint s).Solution.Vars ++ [checkpointVar]⟩⟩
      let p := reduceWorkingSet v s.WorkCopy
      ({ s with
          WorkCopy := p.1
          Solution := ⟨s.Solution.Vars ++ [v]⟩
          CheckpointStack := cp :: s.CheckpointStack }, p.2)

/-! ## Backtracking and the loop predicates -/

/-- parallel_solver.go `Solver.backtrack`: pop the stack, restore working set
and solution from the checkpoint, reduce with the last literal of the restored
solution (the pre-staged negated branch decision).  On an empty restored
solution the Go code would index `Vars[len-1] = Vars[-1]` and panic;
checkpoints are always pushed with the negated branch literal appended, so
that branch is unreachable in any run. -/
def backtrack (s : Solver) : Solver × Bool :=
  match s.CheckpointStack with
  | [] => (s, false)
  | cp :: rest =>
    match cp.Solution.Vars.getLast? with
    | none =>
      ({ s with
          WorkCopy := cp.WorkCopy
          Solution := cp.Solution
          CheckpointStack := rest }, true)
    | some l =>
      ({ s with
          WorkCopy := (reduceWorkingSet l cp.WorkCopy).1
          Solution := cp.Solution
          CheckpointStack := rest }, true)

/-- parallel_solver.go `Solver.isSolved`. -/
def isSolved (s : Solver) : Bool :=
  s.WorkCopy.isEmpty

/-- parallel_solver.go `Solver.hasContradiction`: some non-empty clause has
every variable impossible. -/
def hasContradiction (s : Solver) : Bool :=
  s.WorkCopy.any fun c => !c.Vars.isEmpty && c.Vars.all (·.Impossible)

/-- parallel_solver.go `Solver.isUnsolvable`: non-empty working set, empty
checkpoint stack, and every variable of every clause impossible. -/
def isUnsolvable (s : Solver) : Bool :=
  !s.WorkCopy.isEmpty && s.CheckpointStack.isEmpty &&
    s.WorkCopy.all fun c => c.Vars.all (·.Impossible)

/-! ## The sequential `Solve` loop -/

/-- One iteration of the `for` loop in the sequential `Solver.Solve`
(parallel_solver.go): `Sum.inl` continues with the new state, `Sum.inr` is a
`break` together with the final `(Result, Solution)`.  The precedence order
and the state flow follow the Go source: a failed `split` may still have
mutated the state (pushed a checkpoint, extended the solution, removed
clauses), and the following `backtrack` runs on that mutated state.  The final
`break` (after a failed fallback backtrack) leaves `s.Result` untouched. -/
def solveStep (ordP ordU : List Int) (s : Solver) : Solver ⊕ (Result × Clause) :=
  if isSolved s then .inr (.SATISFIABLE, s.Solution)
  else if isUnsolvable s then .inr (.UNSATISFIABLE, s.Solution)
  else if hasContradiction s then
    match backtrack s with
    | (s', true) => .inl s'
    | (_, false) => .inr (.UNSATISFIABLE, s.Solution)
  else
    let up := unitPropagation s
    if up.2 then .inl up.1
    else
      let pl := pureLiteral ordP up.1
      if pl.2 then .inl pl.1
      else
        let sp := split ordU pl.1
        if sp.2 then .inl sp.1
        else
          match backtrack sp.1 with
          | (s4, true) => .inl s4
          | (s4, false) => .inr (s4.Result, s4.Solution)

/-- One loop iteration under some valid pair of map-iteration orders
(Go map iteration is nondeterministic; a run fixes one order per iteration). -/
def StepTo (s : Solver) (o : Solver ⊕ (Result × Clause)) : Prop :=
  ∃ ordP ordU, PureOrd s.WorkCopy ordP ∧ UsageOrd s.WorkCopy ordU ∧
    solveStep ordP ordU s = o

/-- The states visited by a run of the sequential `Solve` loop from `s`
(reflexive-transitive closure of the loop step). -/
inductive Reaches : Solver → Solver → Prop
  | refl (s : Solver) : Reaches s s
  | step {s t u : Solver} : StepTo s (Sum.inl t) → Reaches t u → Reaches s u

/-- Some run of `Solve` from `s` terminates with outcome `o`. -/
def ReachesOutcome (s : Solver) (o : Result × Clause) : Prop :=
  ∃ t, Reaches s t ∧ StepTo t (Sum.inr o)

/-! ### Claim C3: the branching tie-break -/

/-- Characterisation of the Go max search: either nothing ever beat the
initial pair, or the result is the first element of the order achieving the
running maximum — all earlier elements have strictly smaller counts and all
elements at most the result's count. -/
theorem splitFold_master (W : List Clause) :
    ∀ (l : List Int) (m : Int × Nat),
      (splitFold W m l = m ∧ ∀ i ∈ l, usageCount W i ≤ m.2) ∨
      (∃ l1 l2, l = l1 ++ (splitFold W m l).1 :: l2 ∧
        (splitFold W m l).2 = usageCount W (splitFold W m l).1 ∧
        m.2 < (splitFold W m l).2 ∧
        (∀ i ∈ l1, usageCount W i < (splitFold W m l).2) ∧
        (∀ i ∈ l2, usageCount W i ≤ (splitFold W m l).2)) := by
  intro l
  induction l with
  | nil => intro m; exact Or.inl ⟨rfl, by simp⟩
  | cons i l ih =>
    intro m
    by_cases hgt : usageCount W i > m.2
    · have hstep : splitFold W m (i :: l) = splitFold W (i, usageCount W i) l := by
        simp [splitFold, hgt]
      rw [hstep]
      rcases ih (i, usageCount W i) with ⟨heq, hall⟩ | ⟨l1, l2, hsplit, hval, hlt, hl1, hl2⟩
      · rw [heq]
        exact Or.inr ⟨[], l, by simp, rfl, hgt, by simp, hall⟩
      · set r := splitFold W (i, usageCount W i) l with hr
        refine Or.inr ⟨i :: l1, l2, ?_, hval, ?_, ?_, hl2⟩
        · rw [List.cons_append, ← hsplit]
        · have : (i, usageCount W i).2 = usageCount W i := rfl
          omega
        · intro j hj
          rcases List.mem_cons.mp hj with rfl | hj0
          · have : (j, usageCount W j).2 = usageCount W j := rfl
            omega
          · exact hl1 j hj0
    · have hstep : splitFold W m (i :: l) = splitFold W m l := by
        simp [splitFold, hgt]
      rw [hstep]
      rcases ih m with ⟨heq, hall⟩ | ⟨l1, l2, hsplit, hval, hlt, hl1, hl2⟩
      · rw [heq]
        refine Or.inl ⟨rfl, ?_⟩
        intro j hj
        rcases List.mem_cons.mp hj with rfl | hj0
        · omega
        · exact hall j hj0
      · set r := splitFold W m l with hr
        refine Or.inr ⟨i :: l1, l2, ?_, hval, hlt, ?_, hl2⟩
        · rw [List.cons_append, ← hsplit]
        · intro j hj
          rcases List.mem_cons.mp hj with rfl | hj0
          · omega
          · exact hl1 j hj0

/-- C3, counterexample: a working set in which ids 3 and 7 each have five
non-impossible occurrences and no other id has five or more.  Under the valid
usage-map iteration order `[7, 3]` — Go map iteration order is randomized and
may well produce it — `split` selects id 7, not the smallest tied id 3: the
branch literal appended to the solution has id 7. -/
theorem split_tie_break_cex :
    UsageOrd
      [⟨[⟨3, false, false⟩, ⟨7, false, false⟩]⟩,
        ⟨[⟨3, false, false⟩, ⟨7, false, false⟩]⟩,
        ⟨[⟨3, false, false⟩, ⟨7, false, false⟩]⟩,
        ⟨[⟨3, true, false⟩, ⟨7, true, false⟩]⟩,
        ⟨[⟨3, true, false⟩, ⟨7, true, false⟩]⟩] [7, 3] ∧
    usageCount
      [⟨[⟨3, false, false⟩, ⟨7, false, false⟩]⟩,
        ⟨[⟨3, false, false⟩, ⟨7, false, false⟩]⟩,
        ⟨[⟨3, false, false⟩, ⟨7, false, false⟩]⟩,
        ⟨[⟨3, true, false⟩, ⟨7, true, false⟩]⟩,
        ⟨[⟨3, true, false⟩, ⟨7, true, false⟩]⟩] 3 = 5 ∧
    usageCount
      [⟨[⟨3, false, false⟩, ⟨7, false, false⟩]⟩,
        ⟨[⟨3, false, false⟩, ⟨7, false, false⟩]⟩,
        ⟨[⟨3, false, false⟩, ⟨7, false, false⟩]⟩,
        ⟨[⟨3, true, false⟩, ⟨7, true, false⟩]⟩,
        ⟨[⟨3, true, false⟩, ⟨7, true, false⟩]⟩] 7 = 5 ∧
    ((split [7, 3]
      ⟨.UNKNOWN, ⟨"t", 7, 5, []⟩,
        [⟨[⟨3, false, false⟩, ⟨7, false, false⟩]⟩,
          ⟨[⟨3, false, false⟩, ⟨7, false, false⟩]⟩,
          ⟨[⟨3, false, false⟩, ⟨7, false, false⟩]⟩,
          ⟨[⟨3, true, false⟩, ⟨7, true, false⟩]⟩,
          ⟨[⟨3, true, false⟩, ⟨7, true, false⟩]⟩],
        ⟨[]⟩, []⟩).1.Solution.Vars.map (·.ID)) = [7] := by
  refine ⟨by decide, by decide, by decide, by decide⟩

/-- C3, amended: `split` selects an id with the greatest count of
non-impossible occurrences, but among tied ids the winner is the one iterated
first in that run's (randomized) usage-map order, not the smallest id: the
picked id occurs in the order, every id's count is at most the picked id's
count, and every id iterated before the picked one has a strictly smaller
count. -/
theorem split_picks_first_max (W : List Clause) (ordU : List Int)
    (h : UsageOrd W ordU) (hne : ordU ≠ []) :
    splitPick W ordU ∈ ordU ∧
    (∀ i ∈ ordU, usageCount W i ≤ usageCount W (splitPick W ordU)) ∧
    ∃ l1 l2, ordU = l1 ++ splitPick W ordU :: l2 ∧
      ∀ i ∈ l1, usageCount W i < usageCount W (splitPick W ordU) := by
  obtain ⟨-, hpos, -⟩ := h
  have hp : splitPick W ordU = (splitFold W ((0 : Int), (0 : Nat)) ordU).1 := rfl
  rcases splitFold_master W ordU ((0 : Int), (0 : Nat)) with ⟨-, hall⟩ |
    ⟨l1, l2, hsplit, hval, -, hl1, hl2⟩
  · exfalso
    rcases ordU with - | ⟨i, l⟩
    · exact hne rfl
    · have h1 := hpos i (List.mem_cons_self i l)
      have h2 := hall i (List.mem_cons_self i l)
      simp at h2
      omega
  · rw [hp]
    set r1 := (splitFold W ((0 : Int), (0 : Nat)) ordU).1 with hr1
    rw [hval] at hl1 hl2
    have hmem : r1 ∈ ordU := by
      rw [hsplit]
      exact List.mem_append_right _ (List.mem_cons_self _ _)
    refine ⟨hmem, ?_, l1, l2, hsplit, hl1⟩
    intro i hi
    rw [hsplit] at hi
    rcases List.mem_append.mp hi with hi1 | hi2
    · exact le_of_lt (hl1 i hi1)
    · rcases List.mem_cons.mp hi2 with rfl | hi3
      · exact le_refl _
      · exact hl2 i hi3

/-- Witness for `split_picks_first_max`: with ascending iteration order
`[3, 7]` on the tied working set, the smallest tied id 3 is picked (it comes
first), illustrating the amended characterisation at a concrete input. -/
theorem split_picks_first_max_witness :
    splitPick
      [⟨[⟨3, false, false⟩, ⟨7, false, false⟩]⟩,
        ⟨[⟨3, false, false⟩, ⟨7, false, false⟩]⟩,
        ⟨[⟨3, false, false⟩, ⟨7, false, false⟩]⟩,
        ⟨[⟨3, true, false⟩, ⟨7, true, false⟩]⟩,
        ⟨[⟨3, true, false⟩, ⟨7, true, false⟩]⟩] [3, 7] ∈ ([3, 7] : List Int) ∧
    (∀ i ∈ ([3, 7] : List Int),
      usageCount
        [⟨[⟨3, false, false⟩, ⟨7, false, false⟩]⟩,
          ⟨[⟨3, false, false⟩, ⟨7, false, false⟩]⟩,
          ⟨[⟨3, false, false⟩, ⟨7, false, false⟩]⟩,
          ⟨[⟨3, true, false⟩, ⟨7, true, false⟩]⟩,
          ⟨[⟨3, true, false⟩, ⟨7, true, false⟩]⟩] i ≤
      usageCount
        [⟨[⟨3, false, false⟩, ⟨7, false, false⟩]⟩,
          ⟨[⟨3, false, false⟩, ⟨7, false, false⟩]⟩,
          ⟨[⟨3, false, false⟩, ⟨7, false, false⟩]⟩,
          ⟨[⟨3, true, false⟩, ⟨7, true, false⟩]⟩,
          ⟨[⟨3, true, false⟩, ⟨7, true, false⟩]⟩]
        (splitPick
          [⟨[⟨3, false, false⟩, ⟨7, false, false⟩]⟩,
            ⟨[⟨3, false, false⟩, ⟨7, false, false⟩]⟩,
            ⟨[⟨3, false, false⟩, ⟨7, false, false⟩]⟩,
            ⟨[⟨3, true, false⟩, ⟨7, true, false⟩]⟩,
            ⟨[⟨3, true, false⟩, ⟨7, true, false⟩]⟩] [3, 7])) ∧
    ∃ l1 l2, ([3, 7] : List Int) = l1 ++
        splitPick
          [⟨[⟨3, false, false⟩, ⟨7, false, false⟩]⟩,
            ⟨[⟨3, false, false⟩, ⟨7, false, false⟩]⟩,
            ⟨[⟨3, false, false⟩, ⟨7, false, false⟩]⟩,
            ⟨[⟨3, true, false⟩, ⟨7, true, false⟩]⟩,
            ⟨[⟨3, true, false⟩, ⟨7, true, false⟩]⟩] [3, 7] :: l2 ∧
      ∀ i ∈ l1, usageCount
          [⟨[⟨3, false, false⟩, ⟨7, false, false⟩]⟩,
            ⟨[⟨3, false, false⟩, ⟨7, false, false⟩]⟩,
            ⟨[⟨3, false, false⟩, ⟨7, false, false⟩]⟩,
            ⟨[⟨3, true, false⟩, ⟨7, true, false⟩]⟩,
            ⟨[⟨3, true, false⟩, ⟨7, true, false⟩]⟩] i <
        usageCount
          [⟨[⟨3, false, false⟩, ⟨7, false, false⟩]⟩,
            ⟨[⟨3, false, false⟩, ⟨7, false, false⟩]⟩,
            ⟨[⟨3, false, false⟩, ⟨7, false, false⟩]⟩,
            ⟨[⟨3, true, false⟩, ⟨7, true, false⟩]⟩,
            ⟨[⟨3, true, false⟩, ⟨7, true, false⟩]⟩]
          (splitPick
            [⟨[⟨3, false, false⟩, ⟨7, false, false⟩]⟩,
              ⟨[⟨3, false, false⟩, ⟨7, false, false⟩]⟩,
              ⟨[⟨3, false, false⟩, ⟨7, false, false⟩]⟩,
              ⟨[⟨3, true, false⟩, ⟨7, true, false⟩]⟩,
              ⟨[⟨3, true, false⟩, ⟨7, true, false⟩]⟩] [3, 7]) :=
  split_picks_first_max _ [3, 7] (by decide) (by decide)

/-! ### Claim C4: the fallback termination verdict -/

theorem unitPropagation_false_eq {s : Solver}
    (h : (unitPropagation s).2 = false) : (unitPropagation s).1 = s := by
  unfold unitPropagation at h ⊢
  rcases hfu : findUnit s.WorkCopy with - | ⟨i, u⟩
  · rfl
  · rw [hfu] at h
    simp at h

theorem pureLiteral_false_eq {ordP : List Int} {s : Solver}
    (h : (pureLiteral ordP s).2 = false) : (pureLiteral ordP s).1 = s := by
  unfold pureLiteral at h ⊢
  by_cases he : (ordP.filterMap (findRep s.WorkCopy)).isEmpty
  · simp only [he, if_true]
  · simp [he] at h

/-- `split` never changes `Result` or `Problem`. -/
theorem split_const (ordU : List Int) (s : Solver) :
    (split ordU s).1.Result = s.Result ∧ (split ordU s).1.Problem = s.Problem := by
  unfold split
  by_cases hz : splitPick s.WorkCopy ordU = 0
  · simp only [hz, if_pos rfl]
    exact ⟨rfl, rfl⟩
  · simp only [if_neg hz]
    rcases hocc : findFirstOcc s.WorkCopy (splitPick s.WorkCopy ordU) with - | v
    · exact ⟨rfl, rfl⟩
    · exact ⟨rfl, rfl⟩

theorem backtrack_nil {s : Solver} (h : s.CheckpointStack = []) :
    backtrack s = (s, false) := by
  unfold backtrack
  rw [h]

/-- The concrete state refuting the claimed fallback verdict: one clause
holding two non-impossible occurrences of id `0` with opposite polarities
(the Go `int` id `0` is exactly the sentinel `maxVarID == 0` uses). -/
def fallbackState : Solver :=
  ⟨.UNKNOWN, ⟨"t", 1, 1, []⟩,
    [⟨[⟨0, false, false⟩, ⟨0, true, false⟩]⟩], ⟨[]⟩, []⟩

/-- C4, counterexample: at `fallbackState` every precondition of the claim
holds — non-empty working set, `isUnsolvable` false, no contradiction, unit
propagation, pure-literal elimination and split all report no work, and
backtrack fails on the empty checkpoint stack — yet the loop breaks with
`Result = UNKNOWN` (the value set by `NewSolver` and never overwritten on this
path), not `UNSATISFIABLE`: the Go loop's final `break` does not assign
`s.Result`. -/
theorem solveStep_fallback_cex :
    isSolved fallbackState = false ∧
    isUnsolvable fallbackState = false ∧
    hasContradiction fallbackState = false ∧
    (unitPropagation fallbackState).2 = false ∧
    PureOrd fallbackState.WorkCopy [] ∧
    (pureLiteral [] fallbackState).2 = false ∧
    UsageOrd fallbackState.WorkCopy [0] ∧
    (split [0] fallbackState).2 = false ∧
    (split [0] fallbackState).1.CheckpointStack = [] ∧
    (backtrack (split [0] fallbackState).1).2 = false ∧
    solveStep [] [0] fallbackState = Sum.inr (.UNKNOWN, ⟨[]⟩) ∧
    Result.UNKNOWN ≠ Result.UNSATISFIABLE := by
  decide

/-- C4, amended: when an iteration finds the working set non-empty,
`isUnsolvable` false, no contradiction, no unit, no pure literal, `split`
reporting no work, and the checkpoint stack (after the failed split) empty so
that backtrack fails, the loop breaks with the state's current `Result` field
unchanged — `UNKNOWN` for any state descending from `NewSolver` — and not
`UNSATISFIABLE`.  From a parser-accepted task this situation additionally
requires a variable id `0`, which the parser never produces. -/
theorem solveStep_fallback (s : Solver) (ordP ordU : List Int)
    (h1 : isSolved s = false) (h2 : isUnsolvable s = false)
    (h3 : hasContradiction s = false)
    (h4 : (unitPropagation s).2 = false)
    (h5 : (pureLiteral ordP s).2 = false)
    (h6 : (split ordU s).2 = false)
    (h7 : (split ordU s).1.CheckpointStack = []) :
    solveStep ordP ordU s = Sum.inr (s.Result, (split ordU s).1.Solution) := by
  have hu1 := unitPropagation_false_eq h4
  have hp1 := pureLiteral_false_eq h5
  have hb := backtrack_nil h7
  have hsr := (split_const ordU s).1
  simp [solveStep, h1, h2, h3, hu1, h4, h5, h6, hp1, hb, hsr]

/-- Witness for `solveStep_fallback` at the concrete `fallbackState`. -/
theorem solveStep_fallback_witness :
    solveStep [] [0] fallbackState
      = Sum.inr (fallbackState.Result, (split [0] fallbackState).1.Solution) :=
  solveStep_fallback fallbackState [] [0] (by decide) (by decide) (by decide)
    (by decide) (by decide) (by decide) (by decide)

/-! ### Case analysis of one loop iteration -/

/-- With a non-empty checkpoint stack, `backtrack` always reports success. -/
theorem backtrack_cons_snd {s : Solver} {cp : Checkpoint} {rest : List Checkpoint}
    (hst : s.CheckpointStack = cp :: rest) : (backtrack s).2 = true := by
  unfold backtrack
  rw [hst]
  split
  · next x heq => exact absurd heq (by simp)
  · split <;> rfl

theorem backtrack_false_eq {s : Solver} (h : (backtrack s).2 = false) :
    (backtrack s).1 = s := by
  rcases hst : s.CheckpointStack with - | ⟨cp, rest⟩
  · unfold backtrack
    rw [hst]
  · have ht := backtrack_cons_snd hst
    rw [h] at ht
    exact absurd ht (by decide)

/-- Exhaustive case analysis of one iteration of the `Solve` loop, with the
state threading already resolved: a failed unit propagation or pure-literal
pass leaves the state unchanged, so the later calls act on `s` itself; a
failed backtrack leaves the state of the failed split. -/
theorem solveStep_elim {motive : Prop} {ordP ordU : List Int} {s : Solver}
    {o : Solver ⊕ (Result × Clause)}
    (h : solveStep ordP ordU s = o)
    (c1 : isSolved s = true → o = Sum.inr (.SATISFIABLE, s.Solution) → motive)
    (c2 : isSolved s = false → isUnsolvable s = true →
      o = Sum.inr (.UNSATISFIABLE, s.Solution) → motive)
    (c3 : isSolved s = false → isUnsolvable s = false → hasContradiction s = true →
      (backtrack s).2 = true → o = Sum.inl (backtrack s).1 → motive)
    (c4 : isSolved s = false → isUnsolvable s = false → hasContradiction s = true →
      (backtrack s).2 = false → o = Sum.inr (.UNSATISFIABLE, s.Solution) → motive)
    (c5 : isSolved s = false → isUnsolvable s = false → hasContradiction s = false →
      (unitPropagation s).2 = true → o = Sum.inl (unitPropagation s).1 → motive)
    (c6 : isSolved s = false → isUnsolvable s = false → hasContradiction s = false →
      (unitPropagation s).2 = false → (pureLiteral ordP s).2 = true →
      o = Sum.inl (pureLiteral ordP s).1 → motive)
    (c7 : isSolved s = false → isUnsolvable s = false → hasContradiction s = false →
      (unitPropagation s).2 = false → (pureLiteral ordP s).2 = false →
      (split ordU s).2 = true → o = Sum.inl (split ordU s).1 → motive)
    (c8 : isSolved s = false → isUnsolvable s = false → hasContradiction s = false →
      (unitPropagation s).2 = false → (pureLiteral ordP s).2 = false →
      (split ordU s).2 = false → (backtrack (split ordU s).1).2 = true →
      o = Sum.inl (backtrack (split ordU s).1).1 → motive)
    (c9 : isSolved s = false → isUnsolvable s = false → hasContradiction s = false →
      (unitPropagation s).2 = false → (pureLiteral ordP s).2 = false →
      (split ordU s).2 = false → (backtrack (split ordU s).1).2 = false →
      o = Sum.inr ((split ordU s).1.Result, (split ordU s).1.Solution) → motive) :
    motive := by
  unfold solveStep at h
  by_cases h1 : isSolved s = true
  · rw [if_pos h1] at h
    exact c1 h1 h.symm
  · rw [if_neg h1] at h
    simp only [Bool.not_eq_true] at h1
    by_cases h2 : isUnsolvable s = true
    · rw [if_pos h2] at h
      exact c2 h1 h2 h.symm
    · rw [if_neg h2] at h
      simp only [Bool.not_eq_true] at h2
      by_cases h3 : hasContradiction s = true
      · rw [if_pos h3] at h
        rcases hbt : backtrack s with ⟨s2, b⟩
        rw [hbt] at h
        cases b
        · have h' : Sum.inr (α := Solver) ((Result.UNSATISFIABLE : Result), s.Solution) = o := h
          exact c4 h1 h2 h3 (by rw [hbt]) h'.symm
        · have h' : Sum.inl (β := Result × Clause) s2 = o := h
          have hb1 : (backtrack s).1 = s2 := by rw [hbt]
          exact c3 h1 h2 h3 (by rw [hbt]) (by rw [hb1, h'])
      · rw [if_neg h3] at h
        simp only [Bool.not_eq_true] at h3
        by_cases h4 : (unitPropagation s).2 = true
        · rw [if_pos h4] at h
          exact c5 h1 h2 h3 h4 h.symm
        · rw [if_neg h4] at h
          simp only [Bool.not_eq_true] at h4
          rw [unitPropagation_false_eq h4] at h
          by_cases h5 : (pureLiteral ordP s).2 = true
          · rw [if_pos h5] at h
            exact c6 h1 h2 h3 h4 h5 h.symm
          · rw [if_neg h5] at h
            simp only [Bool.not_eq_true] at h5
            rw [pureLiteral_false_eq h5] at h
            by_cases h6 : (split ordU s).2 = true
            · rw [if_pos h6] at h
              exact c7 h1 h2 h3 h4 h5 h6 h.symm
            · rw [if_neg h6] at h
              simp only [Bool.not_eq_true] at h6
              rcases hbt2 : backtrack (split ordU s).1 with ⟨s5, b5⟩
              rw [hbt2] at h
              cases b5
              · have h' : Sum.inr (α := Solver) (s5.Result, s5.Solution) = o := h
                have hs5 : s5 = (split ordU s).1 := by
                  have he := backtrack_false_eq (s := (split ordU s).1) (by rw [hbt2])
                  rw [hbt2] at he
                  exact he
                subst hs5
                exact c9 h1 h2 h3 h4 h5 h6 (by rw [hbt2]) h'.symm
              · have h' : Sum.inl (β := Result × Clause) s5 = o := h
                have hb1 : (backtrack (split ordU s).1).1 = s5 := by rw [hbt2]
                exact c8 h1 h2 h3 h4 h5 h6 (by rw [hbt2]) (by rw [hb1, h'])

/-! ### Claim C10: the frame property -/

theorem unitPropagation_const (s : Solver) :
    (unitPropagation s).1.Result = s.Result ∧
    (unitPropagation s).1.Problem = s.Problem := by
  unfold unitPropagation
  rcases findUnit s.WorkCopy with - | ⟨i, u⟩
  · exact ⟨rfl, rfl⟩
  · exact ⟨rfl, rfl⟩

theorem pureLiteral_const (ordP : List Int) (s : Solver) :
    (pureLiteral ordP s).1.Result = s.Result ∧
    (pureLiteral ordP s).1.Problem = s.Problem := by
  simp only [pureLiteral]
  split
  · exact ⟨rfl, rfl⟩
  · exact ⟨rfl, rfl⟩

theorem backtrack_const (s : Solver) :
    (backtrack s).1.Result = s.Result ∧ (backtrack s).1.Problem = s.Problem := by
  unfold backtrack
  split
  · exact ⟨rfl, rfl⟩
  · split
    · exact ⟨rfl, rfl⟩
    · exact ⟨rfl, rfl⟩

/-- A continuing loop iteration never changes `Result` or `Problem`. -/
theorem solveStep_inl_const {ordP ordU : List Int} {s s' : Solver}
    (h : solveStep ordP ordU s = Sum.inl s') :
    s'.Result = s.Result ∧ s'.Problem = s.Problem := by
  refine solveStep_elim h ?_ ?_ ?_ ?_ ?_ ?_ ?_ ?_ ?_
  · intro _ ho
    exact absurd ho (by simp)
  · intro _ _ ho
    exact absurd ho (by simp)
  · intro _ _ _ _ ho
    injection ho with ho
    rw [ho]
    exact backtrack_const s
  · intro _ _ _ _ ho
    exact absurd ho (by simp)
  · intro _ _ _ _ ho
    injection ho with ho
    rw [ho]
    exact unitPropagation_const s
  · intro _ _ _ _ _ ho
    injection ho with ho
    rw [ho]
    exact pureLiteral_const ordP s
  · intro _ _ _ _ _ _ ho
    injection ho with ho
    rw [ho]
    exact split_const ordU s
  · intro _ _ _ _ _ _ _ ho
    injection ho with ho
    rw [ho]
    exact ⟨(backtrack_const _).1.trans (split_const ordU s).1,
      (backtrack_const _).2.trans (split_const ordU s).2⟩
  · intro _ _ _ _ _ _ _ ho
    exact absurd ho (by simp)

theorem reaches_const {s s' : Solver} (h : Reaches s s') :
    s'.Result = s.Result ∧ s'.Problem = s.Problem := by
  induction h with
  | refl s => exact ⟨rfl, rfl⟩
  | step hst _ ih =>
    obtain ⟨ordP, ordU, -, -, heq⟩ := hst
    have hc := solveStep_inl_const heq
    exact ⟨ih.1.trans hc.1, ih.2.trans hc.2⟩

/-- C10 (confirmed): `NewSolver` starts from a deep copy of the task's
clauses (equal to them by value), no operation of the sequential `Solve` loop
ever changes the `Problem` field — so after `Solve` returns, the task still
holds the clauses the parser produced — and the parser produces every literal
with the `Impossible` flag unset. -/
theorem solve_frame :
    (∀ t : Task, (NewSolver t).Problem = t ∧ (NewSolver t).WorkCopy = t.Clauses) ∧
    (∀ (t : Task) (s' : Solver), Reaches (NewSolver t) s' → s'.Problem = t) ∧
    (∀ (ints : List Int) (c : Clause), parseClauseLine ints = some c →
      ∀ v ∈ c.Vars, v.Impossible = false) := by
  refine ⟨fun t => ⟨rfl, rfl⟩, fun t s' h => (reaches_const h).2, ?_⟩
  intro ints c h v hv
  unfold parseClauseLine at h
  by_cases hval : validateNoNegativePairs ints = true
  · rw [if_pos hval] at h
    injection h with h
    rw [← h] at hv
    simp only [Clause.Vars_mk, List.mem_map] at hv
    obtain ⟨n, -, rfl⟩ := hv
    unfold intToVariable
    by_cases hn : n < 0
    · rw [if_pos hn]
    · rw [if_neg hn]
  · rw [if_neg hval] at h
    exact absurd h (by simp)

/-- Witness for `solve_frame` at a one-clause task, the reflexive run, and
the clause line `1 0`. -/
theorem solve_frame_witness :
    (NewSolver ⟨"t", 1, 1, [⟨[⟨1, false, false⟩]⟩]⟩).WorkCopy
        = [⟨[⟨1, false, false⟩]⟩] ∧
    (NewSolver ⟨"t", 1, 1, [⟨[⟨1, false, false⟩]⟩]⟩).Problem
        = ⟨"t", 1, 1, [⟨[⟨1, false, false⟩]⟩]⟩ ∧
    ∀ v ∈ (⟨[⟨1, false, false⟩]⟩ : Clause).Vars, v.Impossible = false :=
  ⟨(solve_frame.1 _).2,
   solve_frame.2.1 _ _ (Reaches.refl _),
   solve_frame.2.2 [1] _ (by decide)⟩

/-! ### Structural lemmas for the inline pass of `unitPropagation` -/

/-- Combined facts about a surviving clause of the inline pass: literal
structure preserved, non-impossible output literals are input literals, every
literal of the unit's id ends impossible, and the non-impossible count does
not grow. -/
theorem unitScanClause_some_master {u : Variable} :
    ∀ {vs vs' : List Variable}, unitScanClause u vs = some vs' →
      litsOf vs' = litsOf vs ∧
      (∀ v ∈ vs', v.Impossible = false → v ∈ vs) ∧
      (∀ v ∈ vs', v.ID = u.ID → v.Impossible = true) ∧
      nonImpCount vs' ≤ nonImpCount vs := by
  intro vs
  induction vs with
  | nil =>
    intro vs' h
    simp only [unitScanClause, Option.some.injEq] at h
    subst h
    exact ⟨rfl, by simp, by simp, le_refl _⟩
  | cons a as ih =>
    intro vs' h
    simp only [unitScanClause] at h
    by_cases haid : a.ID = u.ID
    · rw [if_pos haid] at h
      by_cases hneg : a.Negated = u.Negated
      · simp [if_pos hneg] at h
      · rw [if_neg hneg] at h
        rcases hsc : unitScanClause u as with - | vs0
        · rw [hsc] at h
          simp at h
        · rw [hsc] at h
          simp only [Option.some.injEq] at h
          subst h
          obtain ⟨il, io, ik, ile⟩ := ih hsc
          refine ⟨by simp [litsOf] at il ⊢; exact il, ?_, ?_, ?_⟩
          · intro v hv himp
            rcases List.mem_cons.mp hv with rfl | hv0
            · simp at himp
            · exact List.mem_cons_of_mem a (io v hv0 himp)
          · intro v hv hid
            rcases List.mem_cons.mp hv with rfl | hv0
            · rfl
            · exact ik v hv0 hid
          · rw [nonImpCount_cons, nonImpCount_cons]
            by_cases ha : a.Impossible <;> simp [ha] <;> omega
    · rw [if_neg haid] at h
      rcases hsc : unitScanClause u as with - | vs0
      · rw [hsc] at h
        simp at h
      · rw [hsc] at h
        simp only [Option.some.injEq] at h
        subst h
        obtain ⟨il, io, ik, ile⟩ := ih hsc
        refine ⟨by simp [litsOf] at il ⊢; exact il, ?_, ?_, ?_⟩
        · intro v hv himp
          rcases List.mem_cons.mp hv with rfl | hv0
          · exact List.mem_cons_self _ _
          · exact List.mem_cons_of_mem a (io v hv0 himp)
        · intro v hv hid
          rcases List.mem_cons.mp hv with rfl | hv0
          · exact absurd hid haid
          · exact ik v hv0 hid
        · rw [nonImpCount_cons, nonImpCount_cons]
          omega

/-- A clause removed by the inline pass contains a literal with the unit's
`(id, negated)` — regardless of its `Impossible` flag. -/
theorem unitScanClause_none {u : Variable} :
    ∀ {vs : List Variable}, unitScanClause u vs = none →
      ∃ v ∈ vs, v.ID = u.ID ∧ v.Negated = u.Negated := by
  intro vs
  induction vs with
  | nil =>
    intro h
    simp [unitScanClause] at h
  | cons a as ih =>
    intro h
    simp only [unitScanClause] at h
    by_cases haid : a.ID = u.ID
    · rw [if_pos haid] at h
      by_cases hneg : a.Negated = u.Negated
      · exact ⟨a, List.mem_cons_self a as, haid, hneg⟩
      · rw [if_neg hneg] at h
        rcases hsc : unitScanClause u as with - | vs0
        · obtain ⟨v, hv, hp⟩ := ih hsc
          exact ⟨v, List.mem_cons_of_mem a hv, hp⟩
        · rw [hsc] at h
          simp at h
    · rw [if_neg haid] at h
      rcases hsc : unitScanClause u as with - | vs0
      · obtain ⟨v, hv, hp⟩ := ih hsc
        exact ⟨v, List.mem_cons_of_mem a hv, hp⟩
      · rw [hsc] at h
        simp at h

theorem unitScanClauses_done_master {u : Variable} :
    ∀ {cs cs' : List Clause}, unitScanClauses u cs = .done cs' →
      (∀ D ∈ cs, ∃ D' ∈ cs', litsOf D'.Vars = litsOf D.Vars ∧
        ∀ v ∈ D'.Vars, v.Impossible = false → v ∈ D.Vars) ∧
      (∀ D' ∈ cs', ∃ D ∈ cs, ∀ v ∈ D'.Vars, v.Impossible = false → v ∈ D.Vars) ∧
      (∀ D' ∈ cs', ∀ v ∈ D'.Vars, v.ID = u.ID → v.Impossible = true) ∧
      mu cs' ≤ mu cs := by
  intro cs
  induction cs with
  | nil =>
    intro cs' h
    simp only [unitScanClauses, UScanRes.done.injEq] at h
    subst h
    exact ⟨by simp, by simp, by simp, le_refl _⟩
  | cons c cs ih =>
    intro cs' h
    rcases hsc : unitScanClause u c.Vars with - | vs
    · simp [unitScanClauses, hsc] at h
    · rcases hre : unitScanClauses u cs with ⟨cs0⟩ | ⟨cs0⟩
      · simp only [unitScanClauses, hsc, hre, UScanRes.done.injEq] at h
        subst h
        obtain ⟨sl, so, sk, sle⟩ := unitScanClause_some_master hsc
        obtain ⟨dmem, dorig, dkill, dle⟩ := ih hre
        refine ⟨?_, ?_, ?_, ?_⟩
        · intro D hD
          rcases List.mem_cons.mp hD with rfl | hD0
          · exact ⟨⟨vs⟩, List.mem_cons_self _ _, sl, so⟩
          · obtain ⟨D', hD', hl, ho⟩ := dmem D hD0
            exact ⟨D', List.mem_cons_of_mem _ hD', hl, ho⟩
        · intro D' hD'
          rcases List.mem_cons.mp hD' with rfl | hD0
          · exact ⟨c, List.mem_cons_self _ _, so⟩
          · obtain ⟨D, hD, ho⟩ := dorig D' hD0
            exact ⟨D, List.mem_cons_of_mem _ hD, ho⟩
        · intro D' hD'
          rcases List.mem_cons.mp hD' with rfl | hD0
          · exact sk
          · exact dkill D' hD0
        · simp only [mu_cons, Clause.Vars_mk]
          omega
      · simp [unitScanClauses, hsc, hre] at h

theorem unitScanClauses_cut_master {u : Variable} :
    ∀ {cs cs' : List Clause}, unitScanClauses u cs = .cut cs' →
      (∀ D ∈ cs, (∃ D' ∈ cs', litsOf D'.Vars = litsOf D.Vars ∧
          ∀ v ∈ D'.Vars, v.Impossible = false → v ∈ D.Vars) ∨
        ∃ v ∈ D.Vars, v.ID = u.ID ∧ v.Negated = u.Negated) ∧
      (∀ D' ∈ cs', ∃ D ∈ cs, ∀ v ∈ D'.Vars, v.Impossible = false → v ∈ D.Vars) ∧
      mu cs' < mu cs := by
  intro cs
  induction cs with
  | nil =>
    intro cs' h
    simp [unitScanClauses] at h
  | cons c cs ih =>
    intro cs' h
    rcases hsc : unitScanClause u c.Vars with - | vs
    · simp only [unitScanClauses, hsc, UScanRes.cut.injEq] at h
      subst h
      refine ⟨?_, ?_, ?_⟩
      · intro D hD
        rcases List.mem_cons.mp hD with rfl | hD0
        · exact Or.inr (unitScanClause_none hsc)
        · exact Or.inl ⟨D, hD0, rfl, fun v hv _ => hv⟩
      · intro D' hD'
        exact ⟨D', List.mem_cons_of_mem _ hD', fun v hv _ => hv⟩
      · rw [mu_cons]
        omega
    · rcases hre : unitScanClauses u cs with ⟨cs0⟩ | ⟨cs0⟩
      · simp [unitScanClauses, hsc, hre] at h
      · simp only [unitScanClauses, hsc, hre, UScanRes.cut.injEq] at h
        subst h
        obtain ⟨sl, so, -, sle⟩ := unitScanClause_some_master hsc
        obtain ⟨cmem, corig, cmu⟩ := ih hre
        refine ⟨?_, ?_, ?_⟩
        · intro D hD
          rcases List.mem_cons.mp hD with rfl | hD0
          · exact Or.inl ⟨⟨vs⟩, List.mem_cons_self _ _, sl, so⟩
          · rcases cmem D hD0 with ⟨D', hD', hl, ho⟩ | hc
            · exact Or.inl ⟨D', List.mem_cons_of_mem _ hD', hl, ho⟩
            · exact Or.inr hc
        · intro D' hD'
          rcases List.mem_cons.mp hD' with rfl | hD0
          · exact ⟨c, List.mem_cons_self _ _, so⟩
          · obtain ⟨D, hD, ho⟩ := corig D' hD0
            exact ⟨D, List.mem_cons_of_mem _ hD, ho⟩
        · simp only [mu_cons, Clause.Vars_mk]
          omega

theorem unitScanClauses_cut_length {u : Variable} :
    ∀ {cs cs' : List Clause}, unitScanClauses u cs = .cut cs' →
      cs'.length < cs.length := by
  intro cs
  induction cs with
  | nil =>
    intro cs' h
    simp [unitScanClauses] at h
  | cons c cs ih =>
    intro cs' h
    rcases hsc : unitScanClause u c.Vars with - | vs
    · simp only [unitScanClauses, hsc, UScanRes.cut.injEq] at h
      subst h
      simp
    · rcases hre : unitScanClauses u cs with ⟨cs0⟩ | ⟨cs0⟩
      · simp [unitScanClauses, hsc, hre] at h
      · simp only [unitScanClauses, hsc, hre, UScanRes.cut.injEq] at h
        subst h
        simpa using ih hre

/-- The accumulated facts about the restart loop of the inline pass. -/
theorem unitRestarts_master {u : Variable} :
    ∀ {fuel : Nat} {cs : List Clause}, cs.length < fuel →
      (∀ D ∈ cs, (∃ D' ∈ unitRestarts u fuel cs,
          litsOf D'.Vars = litsOf D.Vars ∧
          ∀ v ∈ D'.Vars, v.Impossible = false → v ∈ D.Vars) ∨
        ∃ v ∈ D.Vars, v.ID = u.ID ∧ v.Negated = u.Negated) ∧
      (∀ D' ∈ unitRestarts u fuel cs, ∃ D ∈ cs,
        ∀ v ∈ D'.Vars, v.Impossible = false → v ∈ D.Vars) ∧
      (∀ D' ∈ unitRestarts u fuel cs, ∀ v ∈ D'.Vars,
        v.ID = u.ID → v.Impossible = true) ∧
      mu (unitRestarts u fuel cs) ≤ mu cs := by
  intro fuel
  induction fuel with
  | zero => intro cs h; omega
  | succ n ih =>
    intro cs hlen
    rcases hre : unitScanClauses u cs with ⟨cs0⟩ | ⟨cs0⟩
    · have hstep : unitRestarts u (n + 1) cs = cs0 := by
        rw [unitRestarts_succ, hre]
      rw [hstep]
      obtain ⟨dmem, dorig, dkill, dle⟩ := unitScanClauses_done_master hre
      exact ⟨fun D hD => Or.inl (dmem D hD), dorig, dkill, dle⟩
    · have hstep : unitRestarts u (n + 1) cs = unitRestarts u n cs0 := by
        rw [unitRestarts_succ, hre]
      rw [hstep]
      have hl := unitScanClauses_cut_length hre
      obtain ⟨cmem, corig, cmu⟩ := unitScanClauses_cut_master hre
      obtain ⟨imem, iorig, ikill, ile⟩ := ih (show cs0.length < n by omega)
      refine ⟨?_, ?_, ikill, by omega⟩
      · intro D hD
        rcases cmem D hD with ⟨D', hD', hl', ho'⟩ | hc
        · rcases imem D' hD' with ⟨D'', hD'', hl'', ho''⟩ | hc'
          · exact Or.inl ⟨D'', hD'', hl''.trans hl',
              fun v hv himp => ho' v (ho'' v hv himp) himp⟩
          · obtain ⟨v, hv, h1, h2⟩ := hc'
            have hvmem : (v.ID, v.Negated) ∈ litsOf D.Vars := by
              rw [← hl']
              unfold litsOf
              exact List.mem_map_of_mem _ hv
            unfold litsOf at hvmem
            obtain ⟨w, hw, hweq⟩ := List.mem_map.mp hvmem
            injection hweq with e1 e2
            exact Or.inr ⟨w, hw, e1.trans h1, e2.trans h2⟩
        · exact Or.inr hc
      · intro D' hD'
        obtain ⟨D0, hD0, ho0⟩ := iorig D' hD'
        obtain ⟨D, hD, ho⟩ := corig D0 hD0
        exact ⟨D, hD, fun v hv himp => ho v (ho0 v hv himp) himp⟩

/-! ### Specifications of the search helpers -/

theorem findUnit_some : ∀ {W : List Clause} {i : Nat} {u : Variable},
    findUnit W = some (i, u) →
    ∃ h : i < W.length, u ∈ (W.get ⟨i, h⟩).Vars ∧ u.Impossible = false := by
  intro W
  induction W with
  | nil =>
    intro i u h
    simp [findUnit] at h
  | cons c cs ih =>
    intro i u h
    rcases hf : c.Vars.filter (fun v => !v.Impossible) with - | ⟨u', rest⟩
    · rw [findUnit, hf] at h
      simp only [Option.map_eq_some'] at h
      obtain ⟨p, hp, heq⟩ := h
      obtain ⟨hlt, hmem, himp⟩ := ih hp
      injection heq with e1 e2
      subst e2
      subst e1
      exact ⟨by simpa using Nat.succ_lt_succ hlt, hmem, himp⟩
    · rcases rest with - | ⟨u2, rest2⟩
      · rw [findUnit, hf] at h
        injection h with h
        injection h with e1 e2
        subst e1
        subst e2
        have hmem : u' ∈ c.Vars.filter (fun v => !v.Impossible) := by
          rw [hf]
          exact List.mem_cons_self _ _
        refine ⟨by simp, List.mem_of_mem_filter hmem, ?_⟩
        have := List.of_mem_filter hmem
        simpa using this
      · rw [findUnit, hf] at h
        simp only [Option.map_eq_some'] at h
        obtain ⟨p, hp, heq⟩ := h
        obtain ⟨hlt, hmem, himp⟩ := ih hp
        injection heq with e1 e2
        subst e2
        subst e1
        exact ⟨by simpa using Nat.succ_lt_succ hlt, hmem, himp⟩

theorem mem_eraseIdx_or : ∀ {W : List Clause} {i : Nat} {D : Clause}, D ∈ W →
    D ∈ W.eraseIdx i ∨ ∃ h : i < W.length, D = W.get ⟨i, h⟩ := by
  intro W
  induction W with
  | nil =>
    intro i D h
    simp at h
  | cons c cs ih =>
    intro i D h
    cases i with
    | zero =>
      rcases List.mem_cons.mp h with rfl | h0
      · exact Or.inr ⟨by simp, rfl⟩
      · exact Or.inl h0
    | succ n =>
      rcases List.mem_cons.mp h with rfl | h0
      · exact Or.inl (List.mem_cons_self _ _)
      · rcases ih (i := n) h0 with h1 | ⟨hlt, heq⟩
        · exact Or.inl (List.mem_cons_of_mem c h1)
        · exact Or.inr ⟨by simp; omega, heq⟩

theorem hasNonImpOcc_eraseIdx {W : List Clause} {i : Nat} {j : Int}
    (h : hasNonImpOcc (W.eraseIdx i) j) : hasNonImpOcc W j := by
  obtain ⟨c, hc, v, hv, himp, hid⟩ := h
  exact ⟨c, (List.eraseIdx_sublist W i).mem hc, v, hv, himp, hid⟩

theorem unitReduce_kill (u : Variable) (W : List Clause) :
    ∀ c ∈ unitReduce u W, ∀ v ∈ c.Vars, v.ID = u.ID → v.Impossible = true :=
  (unitRestarts_master (u := u) (show W.length < W.length + 1 by omega)).2.2.1

theorem unitReduce_occ_mono {u : Variable} {W : List Clause} {i : Int}
    (h : hasNonImpOcc (unitReduce u W) i) : hasNonImpOcc W i := by
  obtain ⟨c, hc, v, hv, himp, hid⟩ := h
  obtain ⟨-, horig, -, -⟩ :=
    unitRestarts_master (u := u) (show W.length < W.length + 1 by omega)
  obtain ⟨D, hD, ho⟩ := horig c hc
  exact ⟨D, hD, v, ho v hv himp, himp, hid⟩

theorem usage_pos_occ : ∀ {W : List Clause} {i : Int},
    0 < usageCount W i → hasNonImpOcc W i := by
  intro W
  induction W with
  | nil =>
    intro i h
    simp [usageCount] at h
  | cons c cs ih =>
    intro i h
    unfold usageCount at h
    simp only [List.map_cons, List.sum_cons] at h
    by_cases hc : 0 < (c.Vars.filter fun v => !v.Impossible && v.ID == i).length
    · have : ∃ v, v ∈ c.Vars.filter fun v => !v.Impossible && v.ID == i := by
        rcases hf : c.Vars.filter fun v => !v.Impossible && v.ID == i with - | ⟨v, r⟩
        · rw [hf] at hc
          simp at hc
        · exact ⟨v, by rw [hf]; exact List.mem_cons_self _ _⟩
      obtain ⟨v, hv⟩ := this
      have hmem := List.mem_of_mem_filter hv
      have hprop := List.of_mem_filter hv
      simp only [Bool.and_eq_true, Bool.not_eq_true', beq_iff_eq] at hprop
      exact ⟨c, List.mem_cons_self _ _, v, hmem, hprop.1, hprop.2⟩
    · have : 0 < usageCount cs i := by
        unfold usageCount
        omega
      obtain ⟨D, hD, rest⟩ := ih this
      exact ⟨D, List.mem_cons_of_mem c hD, rest⟩

theorem findFirstOcc_some {W : List Clause} {m : Int} {v : Variable}
    (h : findFirstOcc W m = some v) : v.ID = m ∧ ∃ c ∈ W, v ∈ c.Vars := by
  induction W with
  | nil => simp [findFirstOcc] at h
  | cons c cs ih =>
    rw [findFirstOcc, List.findSome?_cons] at h
    rcases hf : c.Vars.find? (fun x => x.ID == m) with - | v'
    · rw [hf] at h
      obtain ⟨hid, D, hD, hv⟩ := ih (by rw [findFirstOcc]; exact h)
      exact ⟨hid, D, List.mem_cons_of_mem c hD, hv⟩
    · rw [hf] at h
      injection h with h
      subst h
      have hid := List.find?_some hf
      simp only [beq_iff_eq] at hid
      exact ⟨hid, c, List.mem_cons_self _ _, List.mem_of_find?_eq_some hf⟩

theorem findRep_some {W : List Clause} {i : Int} {p : Variable}
    (h : findRep W i = some p) :
    p.ID = i ∧ p.Impossible = false ∧ ∃ c ∈ W, p ∈ c.Vars := by
  induction W with
  | nil => simp [findRep] at h
  | cons c cs ih =>
    rw [findRep, List.findSome?_cons] at h
    rcases hf : c.Vars.find? (fun v => v.ID == i && !v.Impossible) with - | p'
    · rw [hf] at h
      obtain ⟨h1, h2, D, hD, hp⟩ := ih (by rw [findRep]; exact h)
      exact ⟨h1, h2, D, List.mem_cons_of_mem c hD, hp⟩
    · rw [hf] at h
      injection h with h
      subst h
      have hprop := List.find?_some hf
      simp only [Bool.and_eq_true, Bool.not_eq_true', beq_iff_eq] at hprop
      exact ⟨hprop.1, hprop.2, c, List.mem_cons_self _ _, List.mem_of_find?_eq_some hf⟩

/-! ### Pure-literal application lemmas -/

/-- Every clause surviving the removal fold for the pure literals is an
original clause that contains, for each applied pure literal, no
non-impossible occurrence with that literal's `(id, negated)`. -/
theorem foldl_pureFilter_mem : ∀ {ps : List Variable} {W : List Clause}
    {c : Clause}, c ∈ ps.foldl (fun W p => pureFilter p W) W →
    c ∈ W ∧ ∀ p ∈ ps, ¬ ∃ v ∈ c.Vars,
      v.ID = p.ID ∧ v.Negated = p.Negated ∧ v.Impossible = false := by
  intro ps
  induction ps with
  | nil =>
    intro W c h
    exact ⟨h, by simp⟩
  | cons p ps ih =>
    intro W c h
    rw [List.foldl_cons] at h
    obtain ⟨h1, h2⟩ := ih h
    have hc : c ∈ W := List.mem_of_mem_filter h1
    have hpred := List.of_mem_filter h1
    simp only [Bool.not_eq_true'] at hpred
    refine ⟨hc, ?_⟩
    intro q hq
    rcases List.mem_cons.mp hq with rfl | hq0
    · rintro ⟨v, hv, e1, e2, e3⟩
      have : (c.Vars.any fun v => v.ID == q.ID && v.Negated == q.Negated
          && !v.Impossible) = true := by
        rw [List.any_eq_true]
        exact ⟨v, hv, by simp [e1, e2, e3]⟩
      rw [this] at hpred
      exact absurd hpred (by decide)
    · exact h2 q hq0

/-- A non-impossible occurrence witnesses its polarity in `hasPol`. -/
theorem hasPol_of_occ {W : List Clause} {c : Clause} {v : Variable}
    (hc : c ∈ W) (hv : v ∈ c.Vars) (himp : v.Impossible = false) :
    hasPol W v.ID v.Negated = true := by
  unfold hasPol
  rw [List.any_eq_true]
  refine ⟨c, hc, ?_⟩
  rw [List.any_eq_true]
  exact ⟨v, hv, by simp [himp]⟩

/-- After the removal fold, no id of an applied pure literal occurs
non-impossibly, provided each applied literal was pure and was found in the
working set. -/
theorem foldl_pureFilter_kill {ps : List Variable} {W : List Clause}
    (hpure : ∀ p ∈ ps, isPure W p.ID = true ∧ hasPol W p.ID p.Negated = true) :
    ∀ p ∈ ps, ¬ hasNonImpOcc (ps.foldl (fun W q => pureFilter q W) W) p.ID := by
  rintro p hp ⟨c, hc, v, hv, himp, hid⟩
  obtain ⟨hcW, hnone⟩ := foldl_pureFilter_mem hc
  obtain ⟨hipure, hipol⟩ := hpure p hp
  by_cases hneg : v.Negated = p.Negated
  · exact hnone p hp ⟨v, hv, hid, hneg, himp⟩
  · have hop : hasPol W p.ID v.Negated = true := by
      have := hasPol_of_occ hcW hv himp
      rw [hid] at this
      exact this
    unfold isPure at hipure
    cases hpn : p.Negated <;> cases hvn : v.Negated <;>
      rw [hpn] at hipol <;> rw [hvn] at hop <;> rw [hpn, hvn] at hneg <;>
      simp at hneg ⊢ <;> rw [hipol, hop] at hipure <;> simp at hipure

/-- The ids of the representatives found for a duplicate-free order are
themselves duplicate-free. -/
theorem reps_ids_nodup {W : List Clause} : ∀ {ordP : List Int}, ordP.Nodup →
    ((ordP.filterMap (findRep W)).map (·.ID)).Nodup := by
  intro ordP
  induction ordP with
  | nil => intro _; simp
  | cons i rest ih =>
    intro hnd
    rw [List.nodup_cons] at hnd
    rw [List.filterMap_cons]
    rcases hr : findRep W i with - | p
    · exact ih hnd.2
    · rw [List.map_cons, List.nodup_cons]
      refine ⟨?_, ih hnd.2⟩
      rintro hmem
      obtain ⟨q, hq, hqe⟩ := List.mem_map.mp hmem
      obtain ⟨j, hj, hjr⟩ := List.mem_filterMap.mp hq
      have hpid := (findRep_some hr).1
      have hqid := (findRep_some hjr).1
      rw [hpid, hqid] at hqe
      exact hnd.1 (hqe ▸ hj)

/-! ### The solver invariant and its preservation -/

/-- No id is committed twice in the partial solution (so in particular never
in both polarities). -/
def DistinctIds (sol : Clause) : Prop :=
  (sol.Vars.map (·.ID)).Nodup

/-- Every committed id has no non-impossible occurrence left in the working
set. -/
def Committed (W : List Clause) (sol : Clause) : Prop :=
  ∀ v ∈ sol.Vars, ¬ hasNonImpOcc W v.ID

/-- Invariant of a stored checkpoint: its solution is non-empty with distinct
ids, every id but the last is fully reduced in the stored working set, and
the last literal — the pre-staged negated branch decision — still occurs
non-impossibly there. -/
def FrameInv (cp : Checkpoint) : Prop :=
  cp.Solution.Vars ≠ [] ∧
  DistinctIds cp.Solution ∧
  (∀ v ∈ cp.Solution.Vars.dropLast, ¬ hasNonImpOcc cp.WorkCopy v.ID) ∧
  ∀ l, cp.Solution.Vars.getLast? = some l → hasNonImpOcc cp.WorkCopy l.ID

/-- Invariant of the sequential solver state. -/
def Inv (s : Solver) : Prop :=
  DistinctIds s.Solution ∧ Committed s.WorkCopy s.Solution ∧
    ∀ cp ∈ s.CheckpointStack, FrameInv cp

/-- Computation rule for a successful backtrack. -/
theorem backtrack_cons {s : Solver} {cp : Checkpoint} {rest : List Checkpoint}
    {l : Variable} (hst : s.CheckpointStack = cp :: rest)
    (hgl : cp.Solution.Vars.getLast? = some l) :
    backtrack s = ({ s with
        WorkCopy := (reduceWorkingSet l cp.WorkCopy).1
        Solution := cp.Solution
        CheckpointStack := rest }, true) := by
  unfold backtrack
  rw [hst]
  show (match cp.Solution.Vars.getLast? with
    | none =>
      ({ s with
          WorkCopy := cp.WorkCopy
          Solution := cp.Solution
          CheckpointStack := rest }, true)
    | some l =>
      ({ s with
          WorkCopy := (reduceWorkingSet l cp.WorkCopy).1
          Solution := cp.Solution
          CheckpointStack := rest }, true)) = _
  rw [hgl]

theorem unitPropagation_inv {s : Solver} (h : Inv s) :
    Inv (unitPropagation s).1 := by
  obtain ⟨hd, hc, hf⟩ := h
  unfold unitPropagation
  rcases hfu : findUnit s.WorkCopy with - | ⟨i, u⟩
  · exact ⟨hd, hc, hf⟩
  · obtain ⟨hlt, hmem, himp⟩ := findUnit_some hfu
    have hocc : hasNonImpOcc s.WorkCopy u.ID :=
      ⟨s.WorkCopy.get ⟨i, hlt⟩, List.get_mem _ _ _, u, hmem, himp, rfl⟩
    refine ⟨?_, ?_, hf⟩
    · unfold DistinctIds at hd ⊢
      simp only [Clause.Vars_mk, List.map_append, List.nodup_append]
      refine ⟨hd, by simp, ?_⟩
      intro a ha hb
      simp only [List.map_cons, List.map_nil, List.mem_singleton] at hb
      subst hb
      obtain ⟨x, hx, hxe⟩ := List.mem_map.mp ha
      exact hc x hx (hxe ▸ hocc)
    · intro v hv
      simp only [Clause.Vars_mk] at hv
      rcases List.mem_append.mp hv with hv0 | hv1
      · intro hoc
        exact hc v hv0 (hasNonImpOcc_eraseIdx (unitReduce_occ_mono hoc))
      · rw [List.mem_singleton] at hv1
        rw [hv1]
        rintro ⟨c0, hc0, w, hw, himp0, hid0⟩
        have := unitReduce_kill u (s.WorkCopy.eraseIdx i) c0 hc0 w hw hid0
        rw [this] at himp0
        exact absurd himp0 (by simp)

theorem pureLiteral_inv {ordP : List Int} {s : Solver}
    (hord : PureOrd s.WorkCopy ordP) (h : Inv s) :
    Inv (pureLiteral ordP s).1 := by
  obtain ⟨hd, hc, hf⟩ := h
  obtain ⟨hnd, hpure, -⟩ := hord
  have hrep_fact : ∀ p ∈ ordP.filterMap (findRep s.WorkCopy),
      isPure s.WorkCopy p.ID = true ∧ hasPol s.WorkCopy p.ID p.Negated = true ∧
      hasNonImpOcc s.WorkCopy p.ID := by
    intro p hp
    obtain ⟨j, hj, hjr⟩ := List.mem_filterMap.mp hp
    obtain ⟨hid, himp, c0, hc0, hpmem⟩ := findRep_some hjr
    have hpol : hasPol s.WorkCopy p.ID p.Negated = true :=
      hasPol_of_occ hc0 hpmem himp
    exact ⟨hid ▸ hpure j hj, hpol, c0, hc0, p, hpmem, himp, rfl⟩
  simp only [pureLiteral]
  split
  · exact ⟨hd, hc, hf⟩
  · refine ⟨?_, ?_, hf⟩
    · unfold DistinctIds at hd ⊢
      simp only [Clause.Vars_mk, List.map_append, List.nodup_append]
      refine ⟨hd, reps_ids_nodup hnd, ?_⟩
      intro a ha hb
      obtain ⟨x, hx, hxe⟩ := List.mem_map.mp ha
      obtain ⟨q, hq, hqe⟩ := List.mem_map.mp hb
      apply hc x hx
      rw [hxe, ← hqe]
      exact (hrep_fact q hq).2.2
    · intro v hv
      simp only [Clause.Vars_mk] at hv
      rcases List.mem_append.mp hv with hv0 | hv1
      · rintro ⟨c0, hc0, w, hw, himp0, hid0⟩
        exact hc v hv0 ⟨c0, (foldl_pureFilter_mem hc0).1, w, hw, himp0, hid0⟩
      · exact foldl_pureFilter_kill
          (fun p hp => ⟨(hrep_fact p hp).1, (hrep_fact p hp).2.1⟩) v hv1

theorem splitPick_mem {W : List Clause} {ordU : List Int}
    (h : splitPick W ordU ≠ 0) : splitPick W ordU ∈ ordU := by
  rcases splitFold_master W ordU ((0 : Int), (0 : Nat)) with ⟨heq, -⟩ |
    ⟨l1, l2, hsplit, -, -, -, -⟩
  · exfalso
    apply h
    unfold splitPick
    rw [heq]
  · unfold splitPick
    set r1 := (splitFold W ((0 : Int), (0 : Nat)) ordU).1 with hr1
    rw [hsplit]
    exact List.mem_append_right _ (List.mem_cons_self _ _)

theorem split_inv {ordU : List Int} {s : Solver}
    (hord : UsageOrd s.WorkCopy ordU) (h : Inv s) :
    Inv (split ordU s).1 := by
  obtain ⟨hd, hc, hf⟩ := h
  unfold split
  by_cases hz : splitPick s.WorkCopy ordU = 0
  · simp only [hz, if_pos rfl]
    exact ⟨hd, hc, hf⟩
  · simp only [if_neg hz]
    have hpos := hord.2.1 _ (splitPick_mem hz)
    have hocc : hasNonImpOcc s.WorkCopy (splitPick s.WorkCopy ordU) :=
      usage_pos_occ hpos
    rcases hfo : findFirstOcc s.WorkCopy (splitPick s.WorkCopy ordU) with - | v
    · exact ⟨hd, hc, hf⟩
    · obtain ⟨hvid, -⟩ := findFirstOcc_some hfo
      have hoccv : hasNonImpOcc s.WorkCopy v.ID := by
        rw [hvid]
        exact hocc
      have hfresh : ∀ x ∈ s.Solution.Vars, x.ID ≠ v.ID := by
        intro x hx he
        exact hc x hx (he ▸ hoccv)
      refine ⟨?_, ?_, ?_⟩
      · unfold DistinctIds at hd ⊢
        simp only [Clause.Vars_mk, List.map_append, List.nodup_append]
        refine ⟨hd, by simp, ?_⟩
        intro a ha hb
        simp only [List.map_cons, List.map_nil, List.mem_singleton] at hb
        obtain ⟨x, hx, hxe⟩ := List.mem_map.mp ha
        exact hfresh x hx (hxe.trans hb)
      · intro x hx
        simp only [Clause.Vars_mk] at hx
        rcases List.mem_append.mp hx with hx0 | hx1
        · intro hoc
          exact hc x hx0 (reduceWorkingSet_occ_mono hoc)
        · rw [List.mem_singleton] at hx1
          rw [hx1]
          exact reduceWorkingSet_not_occ v s.WorkCopy
      · intro cp hcp
        rcases List.mem_cons.mp hcp with rfl | hcp0
        · refine ⟨by simp, ?_, ?_, ?_⟩
          · unfold DistinctIds at hd ⊢
            simp only [Clause.Vars_mk, List.map_append, List.nodup_append]
            refine ⟨hd, by simp, ?_⟩
            intro a ha hb
            simp only [List.map_cons, List.map_nil, List.mem_singleton] at hb
            obtain ⟨x, hx, hxe⟩ := List.mem_map.mp ha
            exact hfresh x hx (hxe.trans hb)
          · intro x hx
            simp only [Clause.Vars_mk, List.dropLast_concat] at hx
            exact hc x hx
          · intro l hl
            simp only [Clause.Vars_mk, List.getLast?_concat, Option.some.injEq] at hl
            rw [← hl]
            exact hoccv
        · exact hf cp hcp0

theorem backtrack_inv {s : Solver} (h : Inv s) : Inv (backtrack s).1 := by
  obtain ⟨hd, hc, hf⟩ := h
  rcases hst : s.CheckpointStack with - | ⟨cp, rest⟩
  · rw [backtrack_nil hst]
    exact ⟨hd, hc, hf⟩
  · have hfi := hf cp (by rw [hst]; exact List.mem_cons_self _ _)
    obtain ⟨hne, hdist, hdrop, hlast⟩ := hfi
    rcases hgl : cp.Solution.Vars.getLast? with - | l
    · exact absurd (List.getLast?_eq_none_iff.mp hgl) hne
    · rw [backtrack_cons hst hgl]
      refine ⟨hdist, ?_, ?_⟩
      · intro x hx
        have hdec := List.dropLast_concat_getLast hne
        have hlx : cp.Solution.Vars.getLast hne = l := by
          have := List.getLast?_eq_getLast cp.Solution.Vars hne
          rw [hgl] at this
          injection this with this
          exact this.symm
        rw [← hdec] at hx
        rcases List.mem_append.mp hx with hx0 | hx1
        · intro hoc
          exact hdrop x hx0 (reduceWorkingSet_occ_mono hoc)
        · rw [List.mem_singleton] at hx1
          rw [hx1, hlx]
          exact reduceWorkingSet_not_occ l cp.WorkCopy
      · intro cp' hcp'
        exact hf cp' (by rw [hst]; exact List.mem_cons_of_mem cp hcp')

theorem solveStep_inv {ordP ordU : List Int} {s s' : Solver}
    (hordP : PureOrd s.WorkCopy ordP) (hordU : UsageOrd s.WorkCopy ordU)
    (h : solveStep ordP ordU s = Sum.inl s') (hinv : Inv s) : Inv s' := by
  refine solveStep_elim h ?_ ?_ ?_ ?_ ?_ ?_ ?_ ?_ ?_
  · intro _ he
    exact Sum.noConfusion he
  · intro _ _ he
    exact Sum.noConfusion he
  · intro _ _ _ _ he
    injection he with he'
    rw [he']
    exact backtrack_inv hinv
  · intro _ _ _ _ he
    exact Sum.noConfusion he
  · intro _ _ _ _ he
    injection he with he'
    rw [he']
    exact unitPropagation_inv hinv
  · intro _ _ _ _ _ he
    injection he with he'
    rw [he']
    exact pureLiteral_inv hordP hinv
  · intro _ _ _ _ _ _ he
    injection he with he'
    rw [he']
    exact split_inv hordU hinv
  · intro _ _ _ _ _ _ _ he
    injection he with he'
    rw [he']
    exact backtrack_inv (split_inv hordU hinv)
  · intro _ _ _ _ _ _ _ he
    exact Sum.noConfusion he

theorem stepTo_inv {s s' : Solver} (h : StepTo s (Sum.inl s')) (hinv : Inv s) :
    Inv s' := by
  obtain ⟨ordP, ordU, hp, hu, he⟩ := h
  exact solveStep_inv hp hu he hinv

theorem newSolver_inv (t : Task) : Inv (NewSolver t) := by
  refine ⟨List.nodup_nil, ?_, ?_⟩
  · intro v hv
    exact absurd hv (List.not_mem_nil v)
  · intro cp hcp
    exact absurd hcp (List.not_mem_nil cp)

theorem reaches_inv {s t : Solver} (h : Reaches s t) (hinv : Inv s) : Inv t := by
  induction h with
  | refl s => exact hinv
  | step hstep _ ih => exact ih (stepTo_inv hstep hinv)

/-- The solution clause assigns at most one polarity to each id: no two of
its literals share an id with different `Negated` flags. -/
def NoContra (sol : Clause) : Prop :=
  ∀ v ∈ sol.Vars, ∀ w ∈ sol.Vars, v.ID = w.ID → v.Negated = w.Negated

/-- Claim C7: in every state reachable by the sequential engine from a
freshly constructed solver, the partial solution contains no two literals
with the same id and different polarities — the underlying invariant
(distinct solution ids, committed ids fully reduced, well-formed checkpoint
frames) is preserved by `unitPropagation`, `pureLiteral`, `split` and
`backtrack`. -/
theorem solution_no_contradiction {task : Task} {t : Solver}
    (h : Reaches (NewSolver task) t) : NoContra t.Solution := by
  have hinv : Inv t := reaches_inv h (newSolver_inv task)
  have hd : (t.Solution.Vars.map (fun v => v.ID)).Nodup := hinv.1
  intro v hv w hw hid
  have hvw : v = w := List.inj_on_of_nodup_map hd hv hw hid
  rw [hvw]

theorem solution_no_contradiction_witness :
    NoContra (Clause.mk [⟨1, false, false⟩]) :=
  @solution_no_contradiction ⟨"t", 1, 1, [⟨[⟨1, false, false⟩]⟩]⟩
    { Result := .UNKNOWN
      Problem := ⟨"t", 1, 1, [⟨[⟨1, false, false⟩]⟩]⟩
      WorkCopy := []
      Solution := ⟨[⟨1, false, false⟩]⟩
      CheckpointStack := [] }
    (Reaches.step ⟨[1], [1], by decide, by decide, by decide⟩
      (Reaches.refl _))

/-! ## Claim C1: soundness of the sequential engine

The solution read as a truth assignment satisfies a clause when some literal
of the clause agrees with a committed solution literal on `(id, negated)`.
The proof tracks that every original clause is either already satisfied or
still represented, with the same literal skeleton, in the working set (and
likewise inside every stored checkpoint); reporting SATISFIABLE requires an
empty working set, which leaves only the first alternative. -/

/-- Clause `c` is satisfied by the assignment read off `sol`: some literal
of `c` matches some solution literal on `(id, negated)`. -/
def coveredBy (sol c : Clause) : Prop :=
  ∃ v ∈ c.Vars, ∃ w ∈ sol.Vars, v.ID = w.ID ∧ v.Negated = w.Negated

instance (sol c : Clause) : Decidable (coveredBy sol c) := by
  unfold coveredBy
  infer_instance

/-- The assignment read off `sol` satisfies every clause of `orig`. -/
def SatisfiesAll (sol : Clause) (orig : List Clause) : Prop :=
  ∀ c ∈ orig, coveredBy sol c

instance (sol : Clause) (orig : List Clause) : Decidable (SatisfiesAll sol orig) := by
  unfold SatisfiesAll
  infer_instance

/-- Every clause of `orig` is satisfied by `sol` or still represented — same
`(id, negated)` skeleton — in `W`. -/
def Covers (W : List Clause) (sol : Clause) (orig : List Clause) : Prop :=
  ∀ c ∈ orig, coveredBy sol c ∨ ∃ c' ∈ W, litsOf c'.Vars = litsOf c.Vars

/-- Coverage invariant: the live state and every checkpoint cover the
original clauses. -/
def CovInv (task : Task) (s : Solver) : Prop :=
  Covers s.WorkCopy s.Solution task.Clauses ∧
    ∀ cp ∈ s.CheckpointStack, Covers cp.WorkCopy cp.Solution task.Clauses

theorem mem_litsOf {vs : List Variable} {v : Variable} (h : v ∈ vs) :
    (v.ID, v.Negated) ∈ litsOf vs :=
  List.mem_map_of_mem _ h

theorem of_mem_litsOf {vs : List Variable} {p : Int × Bool}
    (h : p ∈ litsOf vs) : ∃ v ∈ vs, v.ID = p.1 ∧ v.Negated = p.2 := by
  obtain ⟨v, hv, he⟩ := List.mem_map.mp h
  exact ⟨v, hv, congrArg Prod.fst he, congrArg Prod.snd he⟩

theorem coveredBy_mono {sol : Clause} {ext : List Variable} {c : Clause}
    (h : coveredBy sol c) : coveredBy ⟨sol.Vars ++ ext⟩ c := by
  obtain ⟨v, hv, w, hw, h1, h2⟩ := h
  refine ⟨v, hv, w, ?_, h1, h2⟩
  rw [Clause.Vars_mk]
  exact List.mem_append_left ext hw

/-- A clause of `c`'s skeleton satisfied through a matching literal is
satisfied by any solution containing the match. -/
theorem coveredBy_of_skel {sol c : Clause} {vs : List Variable} {w u : Variable}
    (hl : litsOf vs = litsOf c.Vars) (hw : w ∈ vs) (hu : u ∈ sol.Vars)
    (hid : w.ID = u.ID) (hneg : w.Negated = u.Negated) : coveredBy sol c := by
  have hp : (w.ID, w.Negated) ∈ litsOf c.Vars := by
    rw [← hl]
    exact mem_litsOf hw
  obtain ⟨v', hv', h1, h2⟩ := of_mem_litsOf hp
  exact ⟨v', hv', u, hu, h1.trans hid, h2.trans hneg⟩

/-- Clause fate under the pure-literal removal fold: either the clause
survives unchanged, or it contains a non-impossible occurrence of one of the
applied pure literals. -/
theorem foldl_pureFilter_cover : ∀ {ps : List Variable} {W : List Clause}
    {c : Clause}, c ∈ W →
    c ∈ ps.foldl (fun W p => pureFilter p W) W ∨
      ∃ p ∈ ps, ∃ v ∈ c.Vars,
        v.ID = p.ID ∧ v.Negated = p.Negated ∧ v.Impossible = false := by
  intro ps
  induction ps with
  | nil =>
    intro W c h
    exact Or.inl h
  | cons p ps ih =>
    intro W c h
    by_cases hk : (c.Vars.any fun v =>
        v.ID == p.ID && v.Negated == p.Negated && !v.Impossible) = true
    · right
      obtain ⟨v, hv, hcond⟩ := List.any_eq_true.mp hk
      simp only [Bool.and_eq_true, beq_iff_eq, Bool.not_eq_true'] at hcond
      exact ⟨p, List.mem_cons_self _ _, v, hv, hcond.1.1, hcond.1.2, hcond.2⟩
    · have hc' : c ∈ pureFilter p W := by
        unfold pureFilter
        rw [List.mem_filter]
        refine ⟨h, ?_⟩
        rw [Bool.not_eq_true']
        exact Bool.eq_false_iff.mpr hk
      rcases ih hc' with h1 | ⟨q, hq, hrest⟩
      · exact Or.inl h1
      · exact Or.inr ⟨q, List.mem_cons_of_mem _ hq, hrest⟩

/-- Computation rule for backtrack popping a checkpoint whose stored solution
is empty (unreachable in real runs, but total in the model). -/
theorem backtrack_cons_none {s : Solver} {cp : Checkpoint}
    {rest : List Checkpoint} (hst : s.CheckpointStack = cp :: rest)
    (hgl : cp.Solution.Vars.getLast? = none) :
    backtrack s = ({ s with
        WorkCopy := cp.WorkCopy
        Solution := cp.Solution
        CheckpointStack := rest }, true) := by
  unfold backtrack
  rw [hst]
  show (match cp.Solution.Vars.getLast? with
    | none =>
      ({ s with
          WorkCopy := cp.WorkCopy
          Solution := cp.Solution
          CheckpointStack := rest }, true)
    | some l =>
      ({ s with
          WorkCopy := (reduceWorkingSet l cp.WorkCopy).1
          Solution := cp.Solution
          CheckpointStack := rest }, true)) = _
  rw [hgl]

theorem unitPropagation_cov {task : Task} {s : Solver} (h : CovInv task s) :
    CovInv task (unitPropagation s).1 := by
  obtain ⟨hl, hf⟩ := h
  unfold unitPropagation
  rcases hfu : findUnit s.WorkCopy with - | ⟨i, u⟩
  · exact ⟨hl, hf⟩
  · obtain ⟨hlt, hmem, -⟩ := findUnit_some hfu
    refine ⟨?_, hf⟩
    intro c hc
    have humem : u ∈ (Clause.mk (s.Solution.Vars ++ [u])).Vars := by
      rw [Clause.Vars_mk]
      exact List.mem_append_right _ (List.mem_singleton.mpr rfl)
    rcases hl c hc with hcov | ⟨c', hc', hlits⟩
    · exact Or.inl (coveredBy_mono hcov)
    · rcases mem_eraseIdx_or (i := i) hc' with hc'' | ⟨hlt2, hceq⟩
      · have hm := (unitRestarts_master (u := u)
            (show (s.WorkCopy.eraseIdx i).length <
              (s.WorkCopy.eraseIdx i).length + 1 by omega)).1 c' hc''
        rcases hm with ⟨D', hD', hD'l, -⟩ | ⟨v, hv, hvid, hvneg⟩
        · exact Or.inr ⟨D', hD', hD'l.trans hlits⟩
        · exact Or.inl (coveredBy_of_skel hlits hv humem hvid hvneg)
      · refine Or.inl (coveredBy_of_skel hlits ?_ humem rfl rfl)
        rw [hceq]
        exact hmem

theorem pureLiteral_cov {task : Task} {ordP : List Int} {s : Solver}
    (h : CovInv task s) : CovInv task (pureLiteral ordP s).1 := by
  obtain ⟨hl, hf⟩ := h
  simp only [pureLiteral]
  split
  · exact ⟨hl, hf⟩
  · refine ⟨?_, hf⟩
    intro c hc
    rcases hl c hc with hcov | ⟨c', hc', hlits⟩
    · exact Or.inl (coveredBy_mono hcov)
    · rcases @foldl_pureFilter_cover (ordP.filterMap (findRep s.WorkCopy))
          s.WorkCopy c' hc' with hsurv | ⟨p, hp, v, hv, h1, h2, -⟩
      · exact Or.inr ⟨c', hsurv, hlits⟩
      · refine Or.inl (coveredBy_of_skel hlits hv ?_ h1 h2)
        rw [Clause.Vars_mk]
        exact List.mem_append_right _ hp

theorem split_cov {task : Task} {ordU : List Int} {s : Solver}
    (h : CovInv task s) : CovInv task (split ordU s).1 := by
  obtain ⟨hl, hf⟩ := h
  unfold split
  by_cases hz : splitPick s.WorkCopy ordU = 0
  · simp only [hz, if_pos rfl]
    exact ⟨hl, hf⟩
  · simp only [if_neg hz]
    rcases hfo : findFirstOcc s.WorkCopy (splitPick s.WorkCopy ordU) with - | v
    · exact ⟨hl, hf⟩
    · refine ⟨?_, ?_⟩
      · intro c hc
        rcases hl c hc with hcov | ⟨c', hc', hlits⟩
        · exact Or.inl (coveredBy_mono hcov)
        · rcases reduceWorkingSet_covers v s.WorkCopy c' hc' with
            ⟨D', hD', hD'l, -⟩ | ⟨w, hw, -, hwid, hwneg⟩
          · exact Or.inr ⟨D', hD', hD'l.trans hlits⟩
          · refine Or.inl (coveredBy_of_skel hlits hw ?_ hwid hwneg)
            rw [Clause.Vars_mk]
            exact List.mem_append_right _ (List.mem_singleton.mpr rfl)
      · intro cp hcp
        rcases List.mem_cons.mp hcp with rfl | hcp0
        · intro c hc
          rcases hl c hc with hcov | hrep
          · exact Or.inl (coveredBy_mono hcov)
          · exact Or.inr hrep
        · exact hf cp hcp0

theorem backtrack_cov {task : Task} {s : Solver} (h : CovInv task s) :
    CovInv task (backtrack s).1 := by
  obtain ⟨hl, hf⟩ := h
  rcases hst : s.CheckpointStack with - | ⟨cp, rest⟩
  · rw [backtrack_nil hst]
    exact ⟨hl, hf⟩
  · have hcpc : Covers cp.WorkCopy cp.Solution task.Clauses :=
      hf cp (by rw [hst]; exact List.mem_cons_self _ _)
    have hrest : ∀ cp' ∈ rest, Covers cp'.WorkCopy cp'.Solution task.Clauses :=
      fun cp' hcp' => hf cp' (by rw [hst]; exact List.mem_cons_of_mem cp hcp')
    rcases hgl : cp.Solution.Vars.getLast? with - | l
    · rw [backtrack_cons_none hst hgl]
      exact ⟨hcpc, hrest⟩
    · rw [backtrack_cons hst hgl]
      refine ⟨?_, hrest⟩
      intro c hc
      rcases hcpc c hc with hcov | ⟨c', hc', hlits⟩
      · exact Or.inl hcov
      · rcases reduceWorkingSet_covers l cp.WorkCopy c' hc' with
          ⟨D', hD', hD'l, -⟩ | ⟨w, hw, -, hwid, hwneg⟩
        · exact Or.inr ⟨D', hD', hD'l.trans hlits⟩
        · exact Or.inl (coveredBy_of_skel hlits hw
            (List.mem_of_mem_getLast? hgl) hwid hwneg)

theorem solveStep_cov {task : Task} {ordP ordU : List Int} {t t' : Solver}
    (he : solveStep ordP ordU t = Sum.inl t') (h : CovInv task t) :
    CovInv task t' := by
  refine solveStep_elim he ?_ ?_ ?_ ?_ ?_ ?_ ?_ ?_ ?_
  · intro _ he'
    exact Sum.noConfusion he'
  · intro _ _ he'
    exact Sum.noConfusion he'
  · intro _ _ _ _ he'
    injection he' with he''
    rw [he'']
    exact backtrack_cov h
  · intro _ _ _ _ he'
    exact Sum.noConfusion he'
  · intro _ _ _ _ he'
    injection he' with he''
    rw [he'']
    exact unitPropagation_cov h
  · intro _ _ _ _ _ he'
    injection he' with he''
    rw [he'']
    exact pureLiteral_cov h
  · intro _ _ _ _ _ _ he'
    injection he' with he''
    rw [he'']
    exact split_cov h
  · intro _ _ _ _ _ _ _ he'
    injection he' with he''
    rw [he'']
    exact backtrack_cov (split_cov h)
  · intro _ _ _ _ _ _ _ he'
    exact Sum.noConfusion he'

theorem newSolver_cov (task : Task) : CovInv task (NewSolver task) := by
  refine ⟨?_, ?_⟩
  · intro c hc
    exact Or.inr ⟨c, hc, rfl⟩
  · intro cp hcp
    exact absurd hcp (List.not_mem_nil cp)

theorem reaches_cov {task : Task} {s t : Solver} (h : Reaches s t)
    (hc : CovInv task s) : CovInv task t := by
  induction h with
  | refl s => exact hc
  | step hstep _ ih =>
    obtain ⟨ordP, ordU, -, -, he⟩ := hstep
    exact ih (solveStep_cov he hc)

/-- Claim C1: soundness — if a run of the sequential `Solve` loop from a
fresh solver breaks with `Result = SATISFIABLE`, the literal sequence in
`Solution`, read as a truth assignment, satisfies every clause of the
original task: each clause holds a literal whose `(id, negated)` pair equals
that of some solution literal. -/
theorem solve_sound {task : Task} {sol : Clause}
    (h : ReachesOutcome (NewSolver task) (Result.SATISFIABLE, sol)) :
    SatisfiesAll sol task.Clauses := by
  obtain ⟨t, hr, hstep⟩ := h
  have hres : t.Result = Result.UNKNOWN := (reaches_const hr).1
  have hcov : CovInv task t := reaches_cov hr (newSolver_cov task)
  obtain ⟨ordP, ordU, -, -, he⟩ := hstep
  refine solveStep_elim he ?_ ?_ ?_ ?_ ?_ ?_ ?_ ?_ ?_
  · intro hsolved he'
    intro c hc
    have hwe : t.WorkCopy = [] := List.isEmpty_iff.mp hsolved
    injection he' with hpair
    have hsol_eq : sol = t.Solution := congrArg Prod.snd hpair
    rcases hcov.1 c hc with hcov1 | ⟨c', hc', -⟩
    · rw [hsol_eq]
      exact hcov1
    · rw [hwe] at hc'
      exact absurd hc' (List.not_mem_nil c')
  · intro _ _ he'
    injection he' with hpair
    injection hpair with h1 _
    exact Result.noConfusion h1
  · intro _ _ _ _ he'
    exact Sum.noConfusion he'
  · intro _ _ _ _ he'
    injection he' with hpair
    injection hpair with h1 _
    exact Result.noConfusion h1
  · intro _ _ _ _ he'
    exact Sum.noConfusion he'
  · intro _ _ _ _ _ he'
    exact Sum.noConfusion he'
  · intro _ _ _ _ _ _ he'
    exact Sum.noConfusion he'
  · intro _ _ _ _ _ _ _ he'
    exact Sum.noConfusion he'
  · intro _ _ _ _ _ _ _ he'
    injection he' with hpair
    injection hpair with h1 _
    rw [(split_const ordU t).1, hres] at h1
    exact Result.noConfusion h1

theorem solve_sound_witness :
    SatisfiesAll (Clause.mk [⟨1, false, false⟩])
      [Clause.mk [⟨1, false, false⟩]] :=
  @solve_sound ⟨"t", 1, 1, [⟨[⟨1, false, false⟩]⟩]⟩
    (Clause.mk [⟨1, false, false⟩])
    ⟨{ Result := .UNKNOWN
       Problem := ⟨"t", 1, 1, [⟨[⟨1, false, false⟩]⟩]⟩
       WorkCopy := []
       Solution := ⟨[⟨1, false, false⟩]⟩
       CheckpointStack := [] },
     Reaches.step ⟨[1], [1], by decide, by decide, by decide⟩ (Reaches.refl _),
     ⟨[], [], by decide, by decide, by decide⟩⟩

/-! ## Claim C2: termination of the sequential loop, Close-once of the queue

Termination measure: `3 ^ mu W` for a working set, doubled for the live one,
summed with one term per stored checkpoint.  Every continuing iteration of
the loop strictly decreases the measure on invariant states with valid map
iteration orders. -/

/-- Termination measure of a solver state. -/
def M (s : Solver) : Nat :=
  2 * 3 ^ mu s.WorkCopy +
    (s.CheckpointStack.map fun cp => 3 ^ mu cp.WorkCopy).sum

theorem two_mul_pow_lt {r c : Nat} (h : r < c) : 2 * 3 ^ r < 3 ^ c := by
  have h1 : 0 < 3 ^ r := Nat.pos_pow_of_pos r (by omega)
  have h2 : 3 ^ (r + 1) ≤ 3 ^ c := Nat.pow_le_pow_right (by omega) h
  have h3 : 3 ^ (r + 1) = 3 ^ r * 3 := pow_succ 3 r
  omega

theorem sublist_sum_le {l1 l2 : List Nat} (h : List.Sublist l1 l2) :
    l1.sum ≤ l2.sum := by
  induction h with
  | slnil => exact le_refl _
  | cons a h ih =>
    simp only [List.sum_cons]
    omega
  | cons₂ a h ih =>
    simp only [List.sum_cons]
    omega

theorem mu_sublist_le {W1 W2 : List Clause} (h : List.Sublist W1 W2) :
    mu W1 ≤ mu W2 := by
  unfold mu
  have h1 := h.length_le
  have h2 := sublist_sum_le (h.map fun c => nonImpCount c.Vars)
  omega

theorem mu_eraseIdx_lt {W : List Clause} {i : Nat} (h : i < W.length) :
    mu (W.eraseIdx i) < mu W := by
  have hs := List.eraseIdx_sublist W i
  have h1 := List.length_eraseIdx_of_lt h
  have h2 := sublist_sum_le (hs.map fun c => nonImpCount c.Vars)
  unfold mu
  omega

theorem pureFilter_mu_lt {p : Variable} {W : List Clause}
    (h : ∃ c ∈ W, ∃ v ∈ c.Vars,
      v.ID = p.ID ∧ v.Negated = p.Negated ∧ v.Impossible = false) :
    mu (pureFilter p W) < mu W := by
  obtain ⟨c, hc, v, hv, h1, h2, h3⟩ := h
  have hlen : (pureFilter p W).length < W.length := by
    unfold pureFilter
    refine List.length_filter_lt_length_iff_exists.mpr ⟨c, hc, ?_⟩
    simp only [Bool.not_eq_true', Bool.not_eq_false]
    rw [List.any_eq_true]
    exact ⟨v, hv, by simp [h1, h2, h3]⟩
  have hsum := sublist_sum_le
    ((List.filter_sublist W (p := fun c =>
        !(c.Vars.any fun v => v.ID == p.ID && v.Negated == p.Negated &&
          !v.Impossible))).map fun c => nonImpCount c.Vars)
  unfold mu pureFilter at *
  omega

theorem foldl_pureFilter_sublist : ∀ {ps : List Variable} {W : List Clause},
    List.Sublist (ps.foldl (fun W p => pureFilter p W) W) W := by
  intro ps
  induction ps with
  | nil =>
    intro W
    exact List.Sublist.refl W
  | cons p ps ih =>
    intro W
    exact List.Sublist.trans ih (List.filter_sublist W)

/-- The measure strictly drops when the working set strictly shrinks and the
stack is untouched. -/
theorem M_lt_of {t s : Solver} (hW : mu t.WorkCopy < mu s.WorkCopy)
    (hst : t.CheckpointStack = s.CheckpointStack) : M t < M s := by
  unfold M
  rw [hst]
  have h3 : (3:Nat) ^ mu t.WorkCopy < 3 ^ mu s.WorkCopy :=
    Nat.pow_lt_pow_right (by omega) hW
  omega

theorem unitPropagation_M_lt {s : Solver}
    (h : (unitPropagation s).2 = true) : M (unitPropagation s).1 < M s := by
  unfold unitPropagation at *
  rcases hfu : findUnit s.WorkCopy with - | ⟨i, u⟩
  · rw [hfu] at h
    exact absurd h (by simp)
  · obtain ⟨hlt, -, -⟩ := findUnit_some hfu
    refine M_lt_of ?_ rfl
    show mu (unitReduce u (s.WorkCopy.eraseIdx i)) < mu s.WorkCopy
    have h1 : mu (unitReduce u (s.WorkCopy.eraseIdx i)) ≤
        mu (s.WorkCopy.eraseIdx i) :=
      (unitRestarts_master (u := u)
        (show (s.WorkCopy.eraseIdx i).length <
          (s.WorkCopy.eraseIdx i).length + 1 by omega)).2.2.2
    have h2 : mu (s.WorkCopy.eraseIdx i) < mu s.WorkCopy := mu_eraseIdx_lt hlt
    omega

theorem pureLiteral_M_lt {ordP : List Int} {s : Solver}
    (h : (pureLiteral ordP s).2 = true) : M (pureLiteral ordP s).1 < M s := by
  simp only [pureLiteral] at *
  rcases hr : ordP.filterMap (findRep s.WorkCopy) with - | ⟨q, qs⟩
  · rw [hr] at h
    exact absurd h (by simp)
  · rw [if_neg (by simp [hr])]
    have hq : q ∈ ordP.filterMap (findRep s.WorkCopy) := by
      rw [hr]
      exact List.mem_cons_self _ _
    obtain ⟨j, -, hjr⟩ := List.mem_filterMap.mp hq
    obtain ⟨-, himp, c0, hc0, hqmem⟩ := findRep_some hjr
    refine M_lt_of ?_ rfl
    show mu ((q :: qs).foldl (fun W p => pureFilter p W) s.WorkCopy) <
      mu s.WorkCopy
    have hfirst : mu (pureFilter q s.WorkCopy) < mu s.WorkCopy :=
      pureFilter_mu_lt ⟨c0, hc0, q, hqmem, rfl, rfl, himp⟩
    have hrest : mu ((q :: qs).foldl (fun W p => pureFilter p W) s.WorkCopy) ≤
        mu (pureFilter q s.WorkCopy) := by
      rw [List.foldl_cons]
      exact mu_sublist_le foldl_pureFilter_sublist
    omega

theorem backtrack_M_lt {s : Solver} (hinv : Inv s)
    (hbt : (backtrack s).2 = true) : M (backtrack s).1 < M s := by
  rcases hst : s.CheckpointStack with - | ⟨cp, rest⟩
  · rw [backtrack_nil hst] at hbt
    exact absurd hbt (by simp)
  · obtain ⟨hne, -, -, hlast⟩ :=
      hinv.2.2 cp (by rw [hst]; exact List.mem_cons_self _ _)
    rcases hgl : cp.Solution.Vars.getLast? with - | l
    · exact absurd (List.getLast?_eq_none_iff.mp hgl) hne
    · rw [backtrack_cons hst hgl]
      have hlt : mu (reduceWorkingSet l cp.WorkCopy).1 < mu cp.WorkCopy :=
        reduceWorkingSet_mu_lt l cp.WorkCopy (hlast l hgl)
      have h1 : 2 * 3 ^ mu (reduceWorkingSet l cp.WorkCopy).1 <
          3 ^ mu cp.WorkCopy := two_mul_pow_lt hlt
      unfold M
      simp only [hst, List.map_cons, List.sum_cons]
      omega

theorem split_M_lt {ordU : List Int} {s : Solver}
    (hord : UsageOrd s.WorkCopy ordU) (h : (split ordU s).2 = true) :
    M (split ordU s).1 < M s := by
  unfold split at h ⊢
  by_cases hz : splitPick s.WorkCopy ordU = 0
  · simp only [hz, if_pos rfl] at h
    exact absurd h (by simp)
  · simp only [if_neg hz] at h ⊢
    rcases hfo : findFirstOcc s.WorkCopy (splitPick s.WorkCopy ordU) with - | v
    · rw [hfo] at h
      exact absurd h (by simp)
    · have hvid : v.ID = splitPick s.WorkCopy ordU := (findFirstOcc_some hfo).1
      have hocc : hasNonImpOcc s.WorkCopy v.ID := by
        rw [hvid]
        exact usage_pos_occ (hord.2.1 _ (splitPick_mem hz))
      have hlt : mu (reduceWorkingSet v s.WorkCopy).1 < mu s.WorkCopy :=
        reduceWorkingSet_mu_lt v s.WorkCopy hocc
      have h2 : 2 * 3 ^ mu (reduceWorkingSet v s.WorkCopy).1 <
          3 ^ mu s.WorkCopy := two_mul_pow_lt hlt
      unfold M
      simp only [markCheckpoint, List.map_cons, List.sum_cons]
      omega

theorem split_backtrack_M_lt {ordU : List Int} {s : Solver}
    (hord : UsageOrd s.WorkCopy ordU) (hinv : Inv s)
    (hbt : (backtrack (split ordU s).1).2 = true) :
    M (backtrack (split ordU s).1).1 < M s := by
  unfold split at hbt ⊢
  by_cases hz : splitPick s.WorkCopy ordU = 0
  · simp only [hz, if_pos rfl] at hbt ⊢
    exact backtrack_M_lt hinv hbt
  · simp only [if_neg hz] at hbt ⊢
    rcases hfo : findFirstOcc s.WorkCopy (splitPick s.WorkCopy ordU) with - | v
    · rw [hfo] at hbt
      exact backtrack_M_lt hinv hbt
    · simp only [markCheckpoint]
      have hvid : v.ID = splitPick s.WorkCopy ordU := (findFirstOcc_some hfo).1
      have hocc : hasNonImpOcc s.WorkCopy
          (Variable.mk v.ID (!v.Negated) v.Impossible).ID := by
        show hasNonImpOcc s.WorkCopy v.ID
        rw [hvid]
        exact usage_pos_occ (hord.2.1 _ (splitPick_mem hz))
      have hgl : (Clause.mk (s.Solution.Vars ++
          [Variable.mk v.ID (!v.Negated) v.Impossible])).Vars.getLast? =
          some (Variable.mk v.ID (!v.Negated) v.Impossible) := by
        rw [Clause.Vars_mk]
        exact List.getLast?_concat _
      have hbc := backtrack_cons
        (s := { s with
            WorkCopy := (reduceWorkingSet v s.WorkCopy).1
            Solution := ⟨s.Solution.Vars ++ [v]⟩
            CheckpointStack :=
              (⟨s.WorkCopy,
                ⟨s.Solution.Vars ++ [⟨v.ID, !v.Negated, v.Impossible⟩]⟩⟩ :
                  Checkpoint) :: s.CheckpointStack })
        rfl hgl
      rw [hbc]
      refine M_lt_of ?_ rfl
      show mu (reduceWorkingSet ⟨v.ID, !v.Negated, v.Impossible⟩ s.WorkCopy).1 <
        mu s.WorkCopy
      exact reduceWorkingSet_mu_lt _ _ hocc

/-- Every continuing iteration of the loop body strictly decreases the
measure, on invariant states with valid map iteration orders. -/
theorem solveStep_M_lt {ordP ordU : List Int} {s t : Solver}
    (hordU : UsageOrd s.WorkCopy ordU) (hinv : Inv s)
    (h : solveStep ordP ordU s = Sum.inl t) : M t < M s := by
  refine solveStep_elim h ?_ ?_ ?_ ?_ ?_ ?_ ?_ ?_ ?_
  · intro _ he
    exact Sum.noConfusion he
  · intro _ _ he
    exact Sum.noConfusion he
  · intro _ _ _ hbt he
    injection he with he'
    rw [he']
    exact backtrack_M_lt hinv hbt
  · intro _ _ _ _ he
    exact Sum.noConfusion he
  · intro _ _ _ hup he
    injection he with he'
    rw [he']
    exact unitPropagation_M_lt hup
  · intro _ _ _ _ hpl he
    injection he with he'
    rw [he']
    exact pureLiteral_M_lt hpl
  · intro _ _ _ _ _ hsp he
    injection he with he'
    rw [he']
    exact split_M_lt hordU hsp
  · intro _ _ _ _ _ _ hbt he
    injection he with he'
    rw [he']
    exact split_backtrack_M_lt hordU hinv hbt
  · intro _ _ _ _ _ _ _ he
    exact Sum.noConfusion he

/-- Bounded-measure accessibility: from an invariant state every chain of
continuing loop iterations is finite. -/
theorem inv_acc : ∀ (n : Nat) (s : Solver), M s < n → Inv s →
    Acc (fun t u : Solver => StepTo u (Sum.inl t)) s := by
  intro n
  induction n with
  | zero =>
    intro s h
    exact absurd h (Nat.not_lt_zero _)
  | succ n ih =>
    intro s hM hinv
    refine Acc.intro s fun t hts => ?_
    obtain ⟨ordP, ordU, hp, hu, he⟩ := hts
    have hlt : M t < n := by
      have := solveStep_M_lt hu hinv he
      omega
    exact ih t hlt (solveStep_inv hp hu he hinv)

/-! ### The parallel work queue (`WorkItem`, `WorkQueue`, `Close`) -/

/-- parallel_solver.go `type WorkItem struct`: a search-tree state queued for
a worker. -/
structure WorkItem where
  WorkCopy : List Clause
  Solution : Clause
  Depth : Int
deriving DecidableEq, Repr

/-- parallel_solver.go `type WorkQueue struct` (mutex and condition variable
elided: operations are modelled as atomic; the returned flag of `Close`
records whether `cond.Broadcast()` ran). -/
structure WorkQueue where
  items : List WorkItem
  closed : Bool
deriving DecidableEq, Repr

/-- parallel_solver.go `WorkQueue.Close`: under the lock, if not yet closed,
set the flag and broadcast once; otherwise do nothing. -/
def WorkQueue.Close (q : WorkQueue) : WorkQueue × Bool :=
  if q.closed then (q, false)
  else ({ q with closed := true }, true)

/-- Claim C2: termination and Close-once.  Every run of the sequential
`Solve` loop from a fresh solver halts — the continuing-step relation is
accessible from `NewSolver task`, so no infinite chain of loop iterations
exists, whatever the map iteration orders — and the parallel work queue is
closed at most once: after any `Close` the flag is set, and a second `Close`
leaves the queue unchanged and does not broadcast again. -/
theorem solve_terminates_close_once :
    (∀ task : Task,
      Acc (fun t u : Solver => StepTo u (Sum.inl t)) (NewSolver task)) ∧
    ∀ q : WorkQueue, (WorkQueue.Close q).1.closed = true ∧
      WorkQueue.Close (WorkQueue.Close q).1 = ((WorkQueue.Close q).1, false) := by
  constructor
  · intro task
    exact inv_acc (M (NewSolver task) + 1) (NewSolver task) (by omega)
      (newSolver_inv task)
  · intro q
    unfold WorkQueue.Close
    by_cases hc : q.closed = true
    · rw [if_pos hc]
      simp [hc]
    · rw [if_neg hc]
      simp

end DPLL
